import Mathlib

/-!
# Progresser

A shallow embedding of `src/progresser.js`, the single-line terminal progress
bar, and the properties of it that the specification states.

Modelling conventions

* JavaScript strings are lists of characters (`Str`).
* `current`, `size` and `interruptions` hold integer-valued JavaScript numbers
  in the safe-integer range, so they are `Int`; the one place where the source
  does non-integer arithmetic (`current / size` and `ratio * 100` in
  `formatStr`) is computed in IEEE-754 binary64, round to nearest, ties to
  even (`fl`).
* The terminal is an event log: every call on `cliCursor`, `readline`, the
  stream, the timer functions and the completion callback appends one `Event`.
  Each operation returns the new state together with the events it issued.
-/

namespace Progresser

/-! ## Strings and numbers -/

/-- JavaScript strings. -/
abbrev Str := List Char

/-- The character `{`. -/
def lbrace : Char := Char.ofNat 123

/-- The character `}`. -/
def rbrace : Char := Char.ofNat 125

/-- The character `$`. -/
def dollar : Char := Char.ofNat 36

/-- The line feed character. -/
def newline : Char := Char.ofNat 10

/-- Decimal digits of a natural number, most significant first, pushed in
front of `acc`; `fuel` bounds the number of digits. -/
def natDigits : Nat → Nat → Str → Str
  | 0, _, acc => acc
  | fuel + 1, n, acc =>
    if n / 10 = 0 then Nat.digitChar (n % 10) :: acc
    else natDigits fuel (n / 10) (Nat.digitChar (n % 10) :: acc)

/-- `String(n)` for an integer-valued number `n`. -/
def numStr (n : Int) : Str :=
  if n < 0 then Char.ofNat 45 :: natDigits (n.natAbs + 1) n.natAbs []
  else natDigits (n.natAbs + 1) n.natAbs []

/-! ## Binary64 arithmetic -/

/-- Nearest integer to `q`, ties to the even neighbour. -/
def roundHalfEven (q : ℚ) : ℤ :=
  if q - ⌊q⌋ < 1 / 2 then ⌊q⌋
  else if 1 / 2 < q - ⌊q⌋ then ⌊q⌋ + 1
  else if ⌊q⌋ % 2 = 0 then ⌊q⌋ else ⌊q⌋ + 1

/-- The binary64 value nearest to a positive rational `q`: with
`2 ^ e ≤ q < 2 ^ (e + 1)` the spacing of binary64 values around `q` is
`2 ^ (e - 52)`, and `q` is rounded to a multiple of it (53-bit significand).
Exponent range is not limited: the quotients and products of safe integers
formed by `formatStr` stay far inside the normal range. -/
def flPos (q : ℚ) : ℚ :=
  roundHalfEven (q / (2 : ℚ) ^ (Int.log 2 q - 52)) * (2 : ℚ) ^ (Int.log 2 q - 52)

/-- Round to nearest binary64, ties to even. -/
def fl (q : ℚ) : ℚ :=
  if q = 0 then 0 else if q < 0 then -flPos (-q) else flPos q

/-! ## Data model -/

/-- The fill glyphs, `options.chars`. The source calls the first field
`prefix`, a reserved word here. -/
structure Chars where
  complete : Str
  incomplete : Str
  prefix_ : Str
  suffix : Str

/-- The stylers, `options.colors`: each maps a string to a styled string. -/
structure Colors where
  complete : Str → Str
  incomplete : Str → Str

/-- The output stream, as far as the bar looks at it: whether it has a
`clearLine` method, and which function is stored under `write`, identified
by a number (0 for the one `process.stderr` comes with). -/
structure Stream where
  hasClearLine : Bool
  writeId : Nat := 0
deriving DecidableEq, Repr

/-- Modelled from the spec: the animation source `./utils/spinner`, which is
not among the sources. It is a stateful generator of frames with a fixed tick
interval: `current()` is the frame at the present index, `spin()` advances
the index cyclically. -/
structure Spinner where
  frames : List Str
  index : Nat
  interval : Nat
deriving DecidableEq, Repr

/-- Modelled from the spec: the current-frame accessor of the animation
source. -/
def Spinner.current (s : Spinner) : Str :=
  s.frames.getD (s.index % s.frames.length) []

/-- Modelled from the spec: the tick trigger of the animation source. -/
def Spinner.spin (s : Spinner) : Spinner :=
  { s with index := s.index + 1 }

/-- The fields of a `Progresser` instance. The completion callback is not
stored: its invocation is recorded as an event. -/
structure State where
  format : Str
  size : Int
  current : Int
  spinner : Option Spinner
  colored : Bool
  clear : Bool
  stream : Stream
  chars : Chars
  colors : Colors
  terminated : Bool
  last : Str
  interruptions : Int
  timer : Option Nat

/-- What the completion callback can read off the instance it is handed. -/
structure Snapshot where
  current : Int
  size : Int
  interruptions : Int
  terminated : Bool
deriving DecidableEq, Repr

/-- The instance as seen by an observer. -/
def State.snapshot (st : State) : Snapshot :=
  { current := st.current, size := st.size, interruptions := st.interruptions,
    terminated := st.terminated }

/-- One call on an external collaborator. -/
inductive Event where
  /-- The call `cliCursor.hide()`. -/
  | cursorHide
  /-- The call `cliCursor.show()`. -/
  | cursorShow
  /-- The call `readline.cursorTo(stream, x)`. -/
  | cursorTo (x : Int)
  /-- The call `readline.clearLine(stream)`. -/
  | clearLine
  /-- The call `stream.clearLine()`. -/
  | streamClearLine
  /-- The call `readline.moveCursor(stream, dx, dy)`. -/
  | moveCursor (dx dy : Int)
  /-- The call `stream.write(s)`. -/
  | write (s : Str)
  /-- The call `setInterval(() => this.spin(), ms)`. -/
  | setInterval (ms : Nat)
  /-- The call `clearInterval(this.timer)`. -/
  | clearInterval
  /-- The call `this.callback(this)`. -/
  | callback (self : Snapshot)
deriving DecidableEq, Repr

/-! ## The bar glyph generator -/

/-- The loop `for (let i = 0; i < bound; i++) chars.push(item)`, started at
counter `i` with `fuel` iterations allowed. -/
def pushLoop (bound : Int) (item : Str) : Nat → Nat → List Str → List Str
  | 0, _, chars => chars
  | fuel + 1, i, chars =>
    if (i : Int) < bound then pushLoop bound item fuel (i + 1) (chars ++ [item])
    else chars

/-- The styled complete glyph pushed by `generate`. -/
def completeItem (st : State) : Str :=
  (if st.colored then st.colors.complete else fun a => a) st.chars.complete

/-- The styled incomplete glyph pushed by `generate`. -/
def incompleteItem (st : State) : Str :=
  (if st.colored then st.colors.incomplete else fun a => a) st.chars.incomplete

/-- The array `chars` of `generate` just before it is joined. Each loop gets
as much fuel as it has iterations. -/
def generateParts (st : State) : List Str :=
  let chars := [st.chars.prefix_]
  let chars := pushLoop st.current (completeItem st) st.current.toNat 0 chars
  let chars :=
    pushLoop (st.size - st.current) (incompleteItem st) (st.size - st.current).toNat 0 chars
  chars ++ [st.chars.suffix]

/-- `generate()`: the bar. -/
def generate (st : State) : Str :=
  (generateParts st).flatten

/-! ## Regular-expression replacement -/

/-- Case folding of a regular expression with the `i` flag and without the
`u` flag: upper-casing, which never maps a non-ASCII character to an ASCII
one. The patterns used here are ASCII, so ASCII upper-casing decides every
comparison against them. -/
def canonicalize (c : Char) : Char := c.toUpper

/-- Whether the literal pattern `pat` matches, ignoring case, at the start of
`s`. -/
def matchesAt (pat s : Str) : Bool :=
  (pat.map canonicalize).isPrefixOf (s.map canonicalize)

/-- The expansion of a replacement string for one match (`GetSubstitution`
for a pattern without capture groups): `$$` is a dollar sign, `$&` the matched
text, `$` followed by a backtick the text before the match, `$` followed by an
apostrophe the text after it; any other `$` stands for itself. -/
def getSubstitution (matched before after : Str) : Str → Str
  | [] => []
  | c :: rest =>
    if c = dollar then
      match rest with
      | [] => [dollar]
      | d :: rest2 =>
        if d = dollar then dollar :: getSubstitution matched before after rest2
        else if d = Char.ofNat 38 then matched ++ getSubstitution matched before after rest2
        else if d = Char.ofNat 96 then before ++ getSubstitution matched before after rest2
        else if d = Char.ofNat 39 then after ++ getSubstitution matched before after rest2
        else dollar :: d :: getSubstitution matched before after rest2
    else c :: getSubstitution matched before after rest

/-- The scan of `String.prototype.replace` with a global, case-insensitive
regular expression for the literal non-empty `pat`: `skip` counts the
characters of the last match still to be passed over, `before` is the text
already scanned. -/
def replaceScan (pat rep : Str) : Nat → Str → Str → Str
  | _, _, [] => []
  | skip + 1, before, c :: cs => replaceScan pat rep skip (before ++ [c]) cs
  | 0, before, c :: cs =>
    if matchesAt pat (c :: cs) then
      getSubstitution ((c :: cs).take pat.length) before ((c :: cs).drop pat.length) rep
        ++ replaceScan pat rep (pat.length - 1) (before ++ [c]) cs
    else c :: replaceScan pat rep 0 (before ++ [c]) cs

/-- The call `s.replace(/pat/gi, rep)` for a literal pattern `pat`. -/
def replaceGI (pat rep s : Str) : Str :=
  replaceScan pat rep 0 [] s

/-- The call `s.includes(pat)`: `pat` occurs in `s`, case-sensitively. -/
def includes : Str → Str → Bool
  | [], pat => pat.isPrefixOf []
  | c :: cs, pat => pat.isPrefixOf (c :: cs) || includes cs pat

/-- Index, counted from `i`, of the first occurrence of `pat` in `s`, or
`-1`. -/
def searchFrom (pat : Str) : Nat → Str → Int
  | i, [] => if pat.isPrefixOf [] then (i : Int) else -1
  | i, c :: cs => if pat.isPrefixOf (c :: cs) then (i : Int) else searchFrom pat (i + 1) cs

/-- The call `s.search(pat)` for a literal pattern: the index of the first
case-sensitive occurrence of `pat`, or `-1`. -/
def search (s pat : Str) : Int :=
  searchFrom pat 0 s

/-- The call `s.substr(0, n)`: a negative length gives the empty string. -/
def substr0 (s : Str) (n : Int) : Str :=
  s.take n.toNat

/-! ## The token formatter -/

/-- The string `{bar}`. -/
def barToken : Str := "{bar}".toList

/-- The value `percent` of `formatStr`: `Math.floor` of the clamped ratio
times one hundred, in binary64; `none` is `NaN`, the result of `0 / 0`.
Division by zero gives an infinity, which the clamp turns into `0` or `1`. -/
def percent (st : State) : Option Int :=
  if st.size = 0 then
    if st.current = 0 then none else if 0 < st.current then some 100 else some 0
  else
    let ratio := fl ((st.current : ℚ) / (st.size : ℚ))
    let ratio := min (max ratio 0) 1
    some ⌊fl (ratio * 100)⌋

/-- `String(percent)`. -/
def percentStr (st : State) : Str :=
  match percent st with
  | none => "NaN".toList
  | some p => numStr p

/-- The value substituted for the spinner token:
`(this.spinner || { current: () => "{spinner}" }).current()`. -/
def spinnerFrame (st : State) : Str :=
  match st.spinner with
  | some sp => sp.current
  | none => "{spinner}".toList

/-- The template `_format || this.format`: an absent or empty argument is
falsy. -/
def chooseFormat (st : State) (_format : Option Str) : Str :=
  match _format with
  | some f => if f = [] then st.format else f
  | none => st.format

/-- `formatStr(_format)`. -/
def formatStr (st : State) (_format : Option Str) : Str :=
  let format := chooseFormat st _format
  let message := replaceGI barToken (generate st) format
  let message := replaceGI "{current}".toList (numStr st.current) message
  let message := replaceGI "{size}".toList (numStr st.size) message
  let message := replaceGI "{percent}".toList (percentStr st) message
  replaceGI "{spinner}".toList (spinnerFrame st) message

/-! ## The operations of the controller -/

/-- `render(format)`. -/
def render (st : State) (format : Option Str) : State × List Event :=
  if st.terminated then (st, [])
  else (st, [Event.cursorTo 0, Event.clearLine, Event.write (formatStr st format)])

/-- The cleanup branch of `terminate()`. -/
def cleanup (st : State) : List Event :=
  if st.clear then
    if st.stream.hasClearLine then
      [Event.streamClearLine, Event.cursorTo 0, Event.moveCursor 0 st.interruptions]
    else []
  else [Event.moveCursor 0 st.interruptions, Event.write [newline]]

/-- `terminate()`. -/
def terminate (st : State) : State × List Event :=
  if st.terminated then (st, [])
  else
    let st1 := { st with terminated := true }
    (st1, [Event.cursorShow] ++ cleanup st1
      ++ (if st1.spinner.isSome then [Event.clearInterval] else [])
      ++ [Event.callback st1.snapshot])

/-- The template `tick(format)` hands to `render`: for a non-empty `format`,
the part of the base format before its first `{bar}`, then `{bar}` and a space,
then `format`. -/
def tickMessage (st : State) (format : Option Str) : Option Str :=
  match format with
  | none => none
  | some f =>
    if f = [] then none
    else
      let before := search st.format barToken
      let after := substr0 st.format before ++ "{bar} ".toList
      some (after ++ f)

/-- `tick(format)`. -/
def tick (st : State) (format : Option Str) : State × List Event :=
  if st.terminated then (st, [])
  else
    let st1 := { st with current := st.current + 1 }
    if st1.current > st1.size then terminate st1
    else render st1 (tickMessage st1 format)

/-- `interrupt(message)`. -/
def interrupt (st : State) (message : Option Str) : State × List Event :=
  let st1 := { st with interruptions := st.interruptions + 1 }
  (st1, [Event.cursorTo 0, Event.moveCursor 0 st1.interruptions,
    Event.write (newline :: formatStr st1 message),
    Event.moveCursor 0 (-st1.interruptions)])

/-- `spin()`. On a bar without a spinner that is not terminated the call
`this.spinner.spin()` throws. -/
def spin (st : State) : Except Str (State × List Event) :=
  if st.terminated then Except.ok (st, [])
  else
    match st.spinner with
    | none => Except.error "TypeError: Cannot read properties of null".toList
    | some sp => Except.ok (render { st with spinner := some sp.spin } none)

/-! ## Construction -/

/-- A caller's `chars` option: every key may be left out. -/
structure CharsInput where
  complete : Option Str := none
  incomplete : Option Str := none
  prefix_ : Option Str := none
  suffix : Option Str := none

/-- A caller's `colors` option. -/
structure ColorsInput where
  complete : Option (Str → Str) := none
  incomplete : Option (Str → Str) := none

/-- A caller's `stream` option. `lodash.merge` treats two kinds of value
differently. An object that is not a plain object (a stream such as
`process.stdout`, made by a class) is assigned as it is. A plain object (such
as `{ write: f }`) is merged key by key into the value already there, which is
the default: for each of `write` and `clearLine`, `none` is a key left out or
`undefined`, and for `clearLine` the boolean tells whether the value given is
truthy. -/
inductive StreamInput where
  | object (s : Stream)
  | plain (writeId : Option Nat) (clearLine : Option Bool)

/-- A caller's configuration object. -/
structure OptionsInput where
  size : Option Int := none
  current : Option Int := none
  spinner : Option Bool := none
  spinnerStyle : Option Str := none
  colored : Option Bool := none
  clear : Option Bool := none
  stream : Option StreamInput := none
  chars : Option CharsInput := none
  colors : Option ColorsInput := none

/-- The second argument of the constructor: a number or a configuration
object. -/
inductive OptionsArg where
  | number (n : Int)
  | object (o : OptionsInput)

/-- The merged options. -/
structure Options where
  size : Int
  current : Int
  spinner : Bool
  spinnerStyle : Str
  colored : Bool
  clear : Bool
  stream : Stream
  chars : Chars
  colors : Colors

/-- What the constructor takes from outside the repository: the standard
error stream, the two `chalk` stylers of the defaults, and the constructor of
the animation source. -/
structure Env where
  stderr : Stream
  blueBright : Str → Str
  gray : Str → Str
  newSpinner : Str → Spinner

/-- The object `defaultOptions`. -/
def defaultOptions (env : Env) : Options :=
  { size := 20
    current := 0
    spinner := true
    spinnerStyle := "dots".toList
    colored := true
    clear := false
    stream := env.stderr
    chars := { complete := "#".toList, incomplete := "-".toList,
               prefix_ := "[".toList, suffix := "]".toList }
    colors := { complete := env.blueBright, incomplete := env.gray } }

/-- The step `if (typeof options === "number") options = { size: options }`. -/
def normalize : OptionsArg → OptionsInput
  | OptionsArg.number n => { size := some n }
  | OptionsArg.object o => o

/-- The `stream` key of `merge({}, defaultOptions, options)`. The first
source puts `process.stderr` itself under the key, since it is no plain
object; a plain object from the caller is then merged into it key by key, any
other object replaces it. -/
def mergeStream (d : Stream) : Option StreamInput → Stream
  | none => d
  | some (StreamInput.object s) => s
  | some (StreamInput.plain w c) =>
    { hasClearLine := c.getD d.hasClearLine, writeId := w.getD d.writeId }

/-- The call `merge({}, defaultOptions, options)`: a key the caller gives
overrides the default, at every nesting level; a key left out keeps it. The
plain objects `chars` and `colors` of the defaults are cloned first; the
stream of the defaults is not, so that the keys of a plain-object stream are
written into `process.stderr` itself: the result below is that object as it is
after the merge. -/
def merge (d : Options) (o : OptionsInput) : Options :=
  { size := o.size.getD d.size
    current := o.current.getD d.current
    spinner := o.spinner.getD d.spinner
    spinnerStyle := o.spinnerStyle.getD d.spinnerStyle
    colored := o.colored.getD d.colored
    clear := o.clear.getD d.clear
    stream := mergeStream d.stream o.stream
    chars :=
      match o.chars with
      | none => d.chars
      | some c =>
        { complete := c.complete.getD d.chars.complete
          incomplete := c.incomplete.getD d.chars.incomplete
          prefix_ := c.prefix_.getD d.chars.prefix_
          suffix := c.suffix.getD d.chars.suffix }
    colors :=
      match o.colors with
      | none => d.colors
      | some c =>
        { complete := c.complete.getD d.colors.complete
          incomplete := c.incomplete.getD d.colors.incomplete } }

/-- The message of the error thrown for a format without `{bar}`. -/
def noBarError : Str :=
  "You need to have at least one \"{bar}\" in the format for the progress bar.".toList

/-- The fields assigned by the constructor, before the first render. -/
def initState (env : Env) (format : Str) (options : Options) : State :=
  { format := format
    size := options.size
    current := options.current
    spinner := if options.spinner then some (env.newSpinner options.spinnerStyle) else none
    colored := options.colored
    clear := options.clear
    stream := options.stream
    chars := options.chars
    colors := options.colors
    terminated := false
    last := []
    interruptions := 0
    timer := none }

/-- The constructor: the events issued, and the instance or the error
thrown. An absent `format` is `{bar}`. The completion callback is the third
argument of the source; it is only ever called, by `terminate`. With
`options.spinner` set the instance has a spinner, so the last `none` branch
is never taken. -/
def construct (env : Env) (format : Option Str) (options : OptionsArg) :
    List Event × Except Str State :=
  let format := format.getD barToken
  let options := merge (defaultOptions env) (normalize options)
  if !includes format barToken then ([], Except.error noBarError)
  else
    let st := initState env format options
    let r := render st none
    if options.spinner then
      match r.1.spinner with
      | some sp =>
        ([Event.cursorHide] ++ r.2 ++ [Event.setInterval sp.interval],
          Except.ok { r.1 with timer := some sp.interval })
      | none => ([Event.cursorHide] ++ r.2, Except.ok r.1)
    else ([Event.cursorHide] ++ r.2, Except.ok r.1)

/-! ## Sequences of calls -/

/-- A call on an instance. -/
inductive Call where
  | tick (extra : Option Str)
  | render (format : Option Str)
  | spin
  | interrupt (message : Option Str)
  | terminate

/-- One call: the new state and the events issued. A `spin()` that throws
has changed nothing and issued nothing. -/
def step (st : State) : Call → State × List Event
  | Call.tick extra => tick st extra
  | Call.render format => render st format
  | Call.spin =>
    match spin st with
    | Except.ok r => r
    | Except.error _ => (st, [])
  | Call.interrupt message => interrupt st message
  | Call.terminate => terminate st

/-- A sequence of calls: the final state and all events in order. -/
def run (st : State) : List Call → State × List Event
  | [] => (st, [])
  | c :: cs => ((run (step st c).1 cs).1, (step st c).2 ++ (run (step st c).1 cs).2)

/-! ## Example bars -/

/-- The fill body: the glyphs pushed between the first and the last element
of the array `chars` of `generate`. -/
def fillBody (st : State) : List Str :=
  (generateParts st).tail.dropLast

/-- A bar of size 4 at 2, uncoloured, without spinner, with the default
glyphs and the format `{bar}`. -/
def demoBar : State :=
  { format := "{bar}".toList
    size := 4
    current := 2
    spinner := none
    colored := false
    clear := false
    stream := { hasClearLine := true }
    chars := { complete := "#".toList, incomplete := "-".toList,
               prefix_ := "[".toList, suffix := "]".toList }
    colors := { complete := fun a => a, incomplete := fun a => a }
    terminated := false
    last := []
    interruptions := 0
    timer := none }

/-! ## Templates -/

/-- The five recognized tokens. -/
inductive Token where
  | bar
  | current
  | size
  | percent
  | spinner
deriving DecidableEq, Repr

/-- The name of a token, as written in the regular expressions of
`formatStr`. -/
def Token.name : Token → Str
  | Token.bar => "bar".toList
  | Token.current => "current".toList
  | Token.size => "size".toList
  | Token.percent => "percent".toList
  | Token.spinner => "spinner".toList

/-- The literal matched by the regular expression of a token. -/
def Token.pattern (t : Token) : Str :=
  lbrace :: t.name ++ [rbrace]

/-- A piece of a template: literal text, or a token in some spelling. -/
inductive Piece where
  | text (s : Str)
  | token (t : Token) (spelling : Str)

/-- The text of a piece as it stands in the template. -/
def Piece.source : Piece → Str
  | Piece.text s => s
  | Piece.token _ spelling => lbrace :: spelling ++ [rbrace]

/-- Literal text holds no opening brace; the spelling of a token is its name
in any letter case. -/
def Piece.WellFormed : Piece → Prop
  | Piece.text s => lbrace ∉ s
  | Piece.token t spelling => spelling.map canonicalize = t.name.map canonicalize

/-- The template made of the pieces. -/
def templateOf (ps : List Piece) : Str :=
  (ps.map Piece.source).flatten

/-- The value `formatStr` substitutes for a token. -/
def tokenValue (st : State) : Token → Str
  | Token.bar => generate st
  | Token.current => numStr st.current
  | Token.size => numStr st.size
  | Token.percent => percentStr st
  | Token.spinner => spinnerFrame st

/-- A piece with its token, if any, resolved. -/
def Piece.value (st : State) : Piece → Str
  | Piece.text s => s
  | Piece.token t _ => tokenValue st t

/-- The pieces after the replacement of token `t` by `v`. -/
def substPiece (t : Token) (v : Str) : Piece → Piece
  | Piece.text s => Piece.text s
  | Piece.token u spelling => if u = t then Piece.text v else Piece.token u spelling

/-- A string without opening brace and without dollar sign. -/
def Clean (s : Str) : Prop :=
  lbrace ∉ s ∧ dollar ∉ s

instance (s : Str) : Decidable (Clean s) := by
  unfold Clean
  infer_instance

instance (p : Piece) : Decidable p.WellFormed := by
  cases p <;> unfold Piece.WellFormed <;> infer_instance

/-- A template with every token twice, in mixed letter case. -/
def demoPieces : List Piece :=
  [Piece.token Token.bar "Bar".toList, Piece.text ": ".toList,
   Piece.token Token.current "CURRENT".toList, Piece.text "/".toList,
   Piece.token Token.size "size".toList, Piece.text [Char.ofNat 32, rbrace],
   Piece.token Token.bar "bar".toList, Piece.token Token.spinner "sPinner".toList]

/-- The example bar with other values of `current` and `size`. -/
def demoAt (current size : Int) : State :=
  { demoBar with current := current, size := size }

/-- A coloured bar whose complete styler returns the text `{size}`. -/
def styledBar : State :=
  { demoBar with colored := true, colors := { complete := fun _ => "{size}".toList,
                                               incomplete := fun a => a } }

/-- An environment for the examples: a stream with `clearLine`, stylers that
wrap their argument in colour codes, and a spinner of four frames ticking
every 80 ms. -/
def demoEnv : Env :=
  { stderr := { hasClearLine := true }
    blueBright := fun a => Char.ofNat 27 :: "[94m".toList ++ a ++ Char.ofNat 27 :: "[39m".toList
    gray := fun a => Char.ofNat 27 :: "[90m".toList ++ a ++ Char.ofNat 27 :: "[39m".toList
    newSpinner := fun _ =>
      { frames := ["-".toList, "\\".toList, "|".toList, "/".toList], index := 0,
        interval := 80 } }

/-- Number of invocations of the completion callback in a log. -/
def countCallback (evs : List Event) : Nat :=
  evs.countP (fun e => match e with
    | Event.callback _ => true
    | _ => false)

/-- Number of calls of `cliCursor.show()` in a log. -/
def countShow (evs : List Event) : Nat :=
  evs.count Event.cursorShow

/-- The texts written to the stream in a log. -/
def writes : List Event → List Str
  | [] => []
  | Event.write s :: evs => s :: writes evs
  | _ :: evs => writes evs

/-- The cursor row after a log, in the terminal model where a cursor move by
`dy` rows changes the row by `dy` and every line feed written moves the cursor
down one row. -/
def cursorRow (row : Int) : List Event → Int
  | [] => row
  | Event.moveCursor _ dy :: evs => cursorRow (row + dy) evs
  | Event.write s :: evs => cursorRow (row + s.count newline) evs
  | _ :: evs => cursorRow row evs

/-- The bar constructed in `demoEnv` with the format `{bar}` and the
number 2 for options. -/
def demoStart : State :=
  match (construct demoEnv (some barToken) (OptionsArg.number 2)).2 with
  | Except.ok st => st
  | Except.error _ => demoBar

/-- The text `pat` occurs in `s` in some letter case. -/
def OccursCI (pat s : Str) : Prop :=
  ∃ pre mid post : Str, s = pre ++ mid ++ post ∧ mid.map canonicalize = pat.map canonicalize

/-- Whether `pat` occurs in `s` in some letter case, as a computation. -/
def includesCI : Str → Str → Bool
  | [], pat => matchesAt pat []
  | c :: cs, pat => matchesAt pat (c :: cs) || includesCI cs pat

/-- The example bar with another base format. -/
def demoWith (format : Str) : State :=
  { demoBar with format := format }

/-- The example bar with `clear` set, on a stream without `clearLine`. -/
def clearBar : State :=
  { demoBar with clear := true, stream := { hasClearLine := false } }

/-- The configuration object with the given size and glyphs, starting at 0,
without spinner and uncoloured. -/
def glyphOptions (size : Int) (chars : Chars) : OptionsArg :=
  OptionsArg.object
    { size := some size
      current := some 0
      spinner := some false
      colored := some false
      chars := some { complete := some chars.complete, incomplete := some chars.incomplete,
                      prefix_ := some chars.prefix_, suffix := some chars.suffix } }

/-- The configuration object `{ size: 2, spinner: false, colored: false }`. -/
def plainOptions : OptionsArg :=
  OptionsArg.object { size := some 2, spinner := some false, colored := some false }

/-- The bar constructed in `demoEnv` with the format `{bar}` and
`plainOptions`. -/
def plainStart : State :=
  match (construct demoEnv (some barToken) plainOptions).2 with
  | Except.ok st => st
  | Except.error _ => demoBar

/-- The default glyphs. -/
def defaultChars : Chars :=
  { complete := "#".toList, incomplete := "-".toList, prefix_ := "[".toList,
    suffix := "]".toList }

/-- The fields of the bar constructed with the format `{bar}` and
`glyphOptions size chars`, before the first render. -/
def glyphStart (env : Env) (size : Int) (chars : Chars) : State :=
  initState env barToken (merge (defaultOptions env) (normalize (glyphOptions size chars)))

/-- Two states with the same configuration: size, format, glyphs, stylers,
flags and stream. -/
def SameConfig (a b : State) : Prop :=
  a.size = b.size ∧ a.format = b.format ∧ a.chars = b.chars ∧ a.colors = b.colors
    ∧ a.colored = b.colored ∧ a.clear = b.clear ∧ a.stream = b.stream

/-- Glyphs whose prefix is the text `{size}`. -/
def tokenChars : Chars :=
  { complete := "#".toList, incomplete := "-".toList, prefix_ := "{size}".toList,
    suffix := "]".toList }

/-- The configuration object with one glyph, a spinner style and a
plain-object stream that has only a `write` function:
`{ spinnerStyle: "line", stream: { write: f }, chars: { complete: "=" } }`. -/
def glyphStreamOptions : OptionsInput :=
  { spinnerStyle := some "line".toList
    stream := some (StreamInput.plain (some 7) none)
    chars := some { complete := some "=".toList } }

/-- The bar constructed in `demoEnv` with the format `{bar}` and
`glyphStreamOptions`. -/
def glyphStreamStart : State :=
  match (construct demoEnv (some barToken) (OptionsArg.object glyphStreamOptions)).2 with
  | Except.ok st => st
  | Except.error _ => demoBar

/-! ## The bar glyph generator: proofs -/

theorem pushLoop_eq (bound : Int) (item : Str) :
    ∀ (fuel i : Nat) (chars : List Str), (bound - i).toNat ≤ fuel →
      pushLoop bound item fuel i chars = chars ++ List.replicate (bound - i).toNat item := by
  intro fuel
  induction fuel with
  | zero =>
    intro i chars h
    have h0 : (bound - i).toNat = 0 := Nat.le_zero.mp h
    simp [pushLoop, h0]
  | succ n ih =>
    intro i chars h
    unfold pushLoop
    by_cases hlt : (i : Int) < bound
    · have hstep : (bound - i).toNat = (bound - ((i + 1 : Nat) : Int)).toNat + 1 := by
        push_cast
        omega
      have hfuel : (bound - ((i + 1 : Nat) : Int)).toNat ≤ n := by omega
      rw [if_pos hlt, ih (i + 1) (chars ++ [item]) hfuel, hstep, List.replicate_succ]
      simp
    · have h0 : (bound - i).toNat = 0 := by omega
      rw [if_neg hlt, h0]
      simp

theorem generateParts_eq (st : State) :
    generateParts st = [st.chars.prefix_]
      ++ List.replicate st.current.toNat (completeItem st)
      ++ List.replicate (st.size - st.current).toNat (incompleteItem st)
      ++ [st.chars.suffix] := by
  unfold generateParts
  simp only []
  rw [pushLoop_eq _ _ _ _ _ (by simp), pushLoop_eq _ _ _ _ _ (by simp)]
  simp

/-- C1: for `0 ≤ current ≤ size` the array joined by `generate()` is the
prefix, then `current` copies of the complete glyph, then `size - current`
copies of the incomplete glyph, then the suffix, and `generate()` is their
concatenation; each glyph is the styler applied to the raw glyph when
`colored` is set and the raw glyph otherwise; so the fill body has exactly
`size` glyphs, the first `current` complete and the others incomplete. -/
theorem generate_layout (st : State) (h0 : 0 ≤ st.current) (h1 : st.current ≤ st.size) :
    generate st = st.chars.prefix_
        ++ (List.replicate st.current.toNat (completeItem st)).flatten
        ++ (List.replicate (st.size - st.current).toNat (incompleteItem st)).flatten
        ++ st.chars.suffix
      ∧ fillBody st = List.replicate st.current.toNat (completeItem st)
        ++ List.replicate (st.size - st.current).toNat (incompleteItem st)
      ∧ ((fillBody st).length : Int) = st.size
      ∧ (fillBody st).take st.current.toNat
          = List.replicate st.current.toNat (completeItem st)
      ∧ (fillBody st).drop st.current.toNat
          = List.replicate (st.size - st.current).toNat (incompleteItem st)
      ∧ completeItem st
          = (if st.colored then st.colors.complete st.chars.complete else st.chars.complete)
      ∧ incompleteItem st
          = (if st.colored then st.colors.incomplete st.chars.incomplete
              else st.chars.incomplete) := by
  have hbody : fillBody st = List.replicate st.current.toNat (completeItem st)
      ++ List.replicate (st.size - st.current).toNat (incompleteItem st) := by
    unfold fillBody
    rw [generateParts_eq]
    simp [List.dropLast_append_of_ne_nil]
  refine ⟨?_, hbody, ?_, ?_, ?_, ?_, ?_⟩
  · unfold generate
    rw [generateParts_eq]
    simp
  · rw [hbody]
    simp only [List.length_append, List.length_replicate]
    push_cast
    omega
  · rw [hbody, List.take_left']
    simp
  · rw [hbody, List.drop_left']
    simp
  · unfold completeItem
    split <;> rfl
  · unfold incompleteItem
    split <;> rfl

theorem generate_layout_witness :
    (0 : Int) ≤ demoBar.current ∧ demoBar.current ≤ demoBar.size
      ∧ fillBody demoBar = List.replicate 2 "#".toList ++ List.replicate 2 "-".toList
      ∧ ((fillBody demoBar).length : Int) = 4 :=
  ⟨by decide, by decide,
    (generate_layout demoBar (by decide) (by decide)).2.1,
    (generate_layout demoBar (by decide) (by decide)).2.2.1⟩

/-! ## The token formatter: proofs -/

theorem canonicalize_eq_lbrace (c : Char) (h : canonicalize c = lbrace) : c = lbrace := by
  unfold canonicalize Char.toUpper at h
  simp only [] at h
  split at h
  · rename_i hc
    exfalso
    have h2 : c = Char.ofNat c.toNat := (Char.ofNat_toNat c).symm
    rw [h2] at h
    obtain ⟨ha, hb⟩ := hc
    generalize c.toNat = n at *
    interval_cases n <;> revert h <;> decide
  · exact h

theorem getSubstitution_plain (matched before after : Str) :
    ∀ rep : Str, dollar ∉ rep → getSubstitution matched before after rep = rep := by
  intro rep
  induction rep with
  | nil => intro _; rfl
  | cons c rest ih =>
    intro h
    have hc : c ≠ dollar := fun hc => h (by simp [hc])
    have hr : dollar ∉ rest := fun hr => h (List.mem_cons_of_mem _ hr)
    unfold getSubstitution
    rw [if_neg hc, ih hr]

theorem replaceScan_succ (pat rep : Str) (k : Nat) (before : Str) (c : Char) (cs : Str) :
    replaceScan pat rep (k + 1) before (c :: cs)
      = replaceScan pat rep k (before ++ [c]) cs := by
  simp [replaceScan]

theorem replaceScan_zero (pat rep : Str) (before : Str) (c : Char) (cs : Str) :
    replaceScan pat rep 0 before (c :: cs)
      = if matchesAt pat (c :: cs) then
          getSubstitution ((c :: cs).take pat.length) before ((c :: cs).drop pat.length) rep
            ++ replaceScan pat rep (pat.length - 1) (before ++ [c]) cs
        else c :: replaceScan pat rep 0 (before ++ [c]) cs := by
  simp [replaceScan]

theorem replaceScan_skip (pat rep : Str) :
    ∀ (u : Str) (before rest : Str),
      replaceScan pat rep u.length before (u ++ rest)
        = replaceScan pat rep 0 (before ++ u) rest := by
  intro u
  induction u with
  | nil => intro before rest; simp
  | cons c u ih =>
    intro before rest
    simp only [List.length_cons, List.cons_append]
    rw [replaceScan_succ, ih]
    simp

theorem matchesAt_of_ne_lbrace (pat0 : Str) (c : Char) (cs : Str) (h : c ≠ lbrace) :
    matchesAt (lbrace :: pat0) (c :: cs) = false := by
  have hc : canonicalize c ≠ lbrace := fun e => h (canonicalize_eq_lbrace c e)
  have hl : canonicalize lbrace = lbrace := by decide
  simp only [matchesAt, List.map_cons, hl, List.isPrefixOf]
  simp [Ne.symm hc]

theorem replaceScan_text (pat0 rep : Str) :
    ∀ (t : Str) (before rest : Str), lbrace ∉ t →
      replaceScan (lbrace :: pat0) rep 0 before (t ++ rest)
        = t ++ replaceScan (lbrace :: pat0) rep 0 (before ++ t) rest := by
  intro t
  induction t with
  | nil => intro before rest _; simp
  | cons c t ih =>
    intro before rest h
    have hc : c ≠ lbrace := fun hc => h (by simp [hc])
    have ht : lbrace ∉ t := fun ht => h (List.mem_cons_of_mem _ ht)
    simp only [List.cons_append]
    rw [replaceScan_zero, matchesAt_of_ne_lbrace pat0 c _ hc]
    simp [ih _ _ ht]

theorem isPrefixOf_append_of_mismatch :
    ∀ (p q r : Str), (List.zipWith (fun a b => a != b) p q).any id = true →
      p.isPrefixOf (q ++ r) = false := by
  intro p
  induction p with
  | nil => intro q r h; simp at h
  | cons a p ih =>
    intro q r h
    cases q with
    | nil => simp at h
    | cons b q =>
      simp only [List.zipWith_cons_cons, List.any_cons, id, Bool.or_eq_true] at h
      simp only [List.cons_append, List.isPrefixOf]
      rcases h with h | h
      · have hab : (a == b) = false := by simpa using h
        simp [hab]
      · simp [ih q r h]

theorem pattern_map_source (t : Token) (spelling : Str)
    (h : (Piece.token t spelling).WellFormed) :
    (Piece.token t spelling).source.map canonicalize = t.pattern.map canonicalize := by
  have h1 : spelling.map canonicalize = t.name.map canonicalize := h
  simp [Piece.source, Token.pattern, h1]

theorem spelling_length (t : Token) (spelling : Str)
    (h : (Piece.token t spelling).WellFormed) : spelling.length = t.name.length := by
  have h1 : spelling.map canonicalize = t.name.map canonicalize := h
  have h2 := congrArg List.length h1
  simpa using h2

theorem spelling_no_lbrace (t : Token) (spelling : Str)
    (h : (Piece.token t spelling).WellFormed) : lbrace ∉ spelling := by
  intro hm
  have h1 : spelling.map canonicalize = t.name.map canonicalize := h
  have h2 : canonicalize lbrace ∈ spelling.map canonicalize := List.mem_map_of_mem _ hm
  rw [h1] at h2
  revert h2
  cases t <;> decide

theorem matchesAt_token_same (t : Token) (spelling rest : Str)
    (h : (Piece.token t spelling).WellFormed) :
    matchesAt t.pattern ((Piece.token t spelling).source ++ rest) = true := by
  unfold matchesAt
  rw [List.map_append, pattern_map_source t spelling h, List.isPrefixOf_iff_prefix]
  exact List.prefix_append _ _

theorem matchesAt_token_other (t u : Token) (spelling rest : Str) (hne : u ≠ t)
    (h : (Piece.token u spelling).WellFormed) :
    matchesAt t.pattern ((Piece.token u spelling).source ++ rest) = false := by
  unfold matchesAt
  rw [List.map_append, pattern_map_source u spelling h]
  apply isPrefixOf_append_of_mismatch
  revert hne
  cases t <;> cases u <;> decide

theorem replaceScan_token_same (t : Token) (rep spelling before rest : Str)
    (hrep : dollar ∉ rep) (h : (Piece.token t spelling).WellFormed) :
    replaceScan t.pattern rep 0 before ((Piece.token t spelling).source ++ rest)
      = rep ++ replaceScan t.pattern rep 0
          (before ++ (Piece.token t spelling).source) rest := by
  have hm := matchesAt_token_same t spelling rest h
  have hlen : t.pattern.length - 1 = (spelling ++ [rbrace]).length := by
    simp [Token.pattern, spelling_length t spelling h]
  simp only [Piece.source, List.cons_append] at hm ⊢
  rw [replaceScan_zero, if_pos hm, getSubstitution_plain _ _ _ _ hrep, hlen,
    replaceScan_skip]
  simp

theorem replaceScan_token_other (t u : Token) (rep spelling before rest : Str)
    (hne : u ≠ t) (h : (Piece.token u spelling).WellFormed) :
    replaceScan t.pattern rep 0 before ((Piece.token u spelling).source ++ rest)
      = (Piece.token u spelling).source ++ replaceScan t.pattern rep 0
          (before ++ (Piece.token u spelling).source) rest := by
  have hm := matchesAt_token_other t u spelling rest hne h
  have hclean : lbrace ∉ spelling ++ [rbrace] := by
    intro hmem
    rcases List.mem_append.mp hmem with h1 | h1
    · exact spelling_no_lbrace u spelling h h1
    · revert h1
      decide
  have hpat : t.pattern = lbrace :: (t.name ++ [rbrace]) := rfl
  simp only [Piece.source, List.cons_append] at hm ⊢
  rw [replaceScan_zero]
  simp only [hm, Bool.false_eq_true, if_false]
  rw [hpat, replaceScan_text _ _ _ _ _ hclean]
  simp

/-- One replacement pass over a template made of well-formed pieces resolves
exactly the pieces that are the token of the pass. -/
theorem replaceScan_pieces (t : Token) (rep : Str) (hrep : dollar ∉ rep) :
    ∀ (ps : List Piece) (before : Str), (∀ p ∈ ps, p.WellFormed) →
      replaceScan t.pattern rep 0 before (templateOf ps)
        = templateOf (ps.map (substPiece t rep)) := by
  intro ps
  induction ps with
  | nil => intro before _; simp [templateOf, replaceScan]
  | cons p ps ih =>
    intro before hwf
    have hp : p.WellFormed := hwf p (by simp)
    have hps : ∀ q ∈ ps, q.WellFormed := fun q hq => hwf q (List.mem_cons_of_mem _ hq)
    have hcons : templateOf (p :: ps) = p.source ++ templateOf ps := by
      simp [templateOf]
    have hcons2 : ∀ (q : Piece) (qs : List Piece),
        templateOf (q :: qs) = q.source ++ templateOf qs := by
      intro q qs
      simp [templateOf]
    rw [hcons, List.map_cons, hcons2]
    cases p with
    | text s =>
      have hpat : t.pattern = lbrace :: (t.name ++ [rbrace]) := rfl
      have hs : lbrace ∉ s := hp
      simp only [Piece.source, substPiece]
      rw [hpat, replaceScan_text _ _ _ _ _ hs, ← hpat, ih _ hps]
    | token u spelling =>
      by_cases hu : u = t
      · subst hu
        rw [replaceScan_token_same u rep spelling before _ hrep hp, ih _ hps]
        simp [substPiece, Piece.source]
      · rw [replaceScan_token_other t u rep spelling before _ hu hp, ih _ hps]
        simp [substPiece, hu]

theorem digitChar_ne (d : Nat) (hd : d < 10) :
    Nat.digitChar d ≠ lbrace ∧ Nat.digitChar d ≠ dollar := by
  interval_cases d <;> decide

theorem natDigits_mem (c : Char) :
    ∀ (fuel n : Nat) (acc : Str), c ∈ natDigits fuel n acc →
      c ∈ acc ∨ ∃ d, d < 10 ∧ c = Nat.digitChar d := by
  intro fuel
  induction fuel with
  | zero => intro n acc h; exact Or.inl h
  | succ k ih =>
    intro n acc h
    unfold natDigits at h
    have hd : n % 10 < 10 := Nat.mod_lt _ (by decide)
    split at h
    · rcases List.mem_cons.mp h with h1 | h1
      · exact Or.inr ⟨n % 10, hd, h1⟩
      · exact Or.inl h1
    · rcases ih _ _ h with h1 | h1
      · rcases List.mem_cons.mp h1 with h2 | h2
        · exact Or.inr ⟨n % 10, hd, h2⟩
        · exact Or.inl h2
      · exact Or.inr h1

theorem numStr_clean (n : Int) : Clean (numStr n) := by
  have key : ∀ c, c ∈ numStr n → c ≠ lbrace ∧ c ≠ dollar := by
    intro c hc
    unfold numStr at hc
    split at hc
    · rcases List.mem_cons.mp hc with h1 | h1
      · subst h1
        decide
      · rcases natDigits_mem c _ _ _ h1 with h2 | ⟨d, hd, h2⟩
        · simp at h2
        · subst h2
          exact digitChar_ne d hd
    · rcases natDigits_mem c _ _ _ hc with h2 | ⟨d, hd, h2⟩
      · simp at h2
      · subst h2
        exact digitChar_ne d hd
  exact ⟨fun h => (key _ h).1 rfl, fun h => (key _ h).2 rfl⟩

theorem percentStr_clean (st : State) : Clean (percentStr st) := by
  unfold percentStr
  split
  · decide
  · exact numStr_clean _

theorem generate_clean (st : State) (hpre : Clean st.chars.prefix_)
    (hsuf : Clean st.chars.suffix) (hc : Clean (completeItem st))
    (hi : Clean (incompleteItem st)) : Clean (generate st) := by
  have key : ∀ c, c ∈ generate st →
      c ∈ st.chars.prefix_ ∨ c ∈ completeItem st ∨ c ∈ incompleteItem st
        ∨ c ∈ st.chars.suffix := by
    intro c hc
    unfold generate at hc
    rw [generateParts_eq] at hc
    simp only [List.flatten_append, List.mem_append, List.mem_flatten, List.mem_replicate,
      List.mem_singleton] at hc
    rcases hc with ((⟨l, hl, hm⟩ | ⟨l, ⟨_, hl⟩, hm⟩) | ⟨l, ⟨_, hl⟩, hm⟩) | ⟨l, hl, hm⟩
    · subst hl
      exact Or.inl hm
    · subst hl
      exact Or.inr (Or.inl hm)
    · subst hl
      exact Or.inr (Or.inr (Or.inl hm))
    · subst hl
      exact Or.inr (Or.inr (Or.inr hm))
  constructor
  · intro h
    rcases key _ h with h1 | h1 | h1 | h1
    · exact hpre.1 h1
    · exact hc.1 h1
    · exact hi.1 h1
    · exact hsuf.1 h1
  · intro h
    rcases key _ h with h1 | h1 | h1 | h1
    · exact hpre.2 h1
    · exact hc.2 h1
    · exact hi.2 h1
    · exact hsuf.2 h1

theorem substPiece_wellFormed (t : Token) (v : Str) (hv : lbrace ∉ v) (ps : List Piece)
    (hwf : ∀ p ∈ ps, p.WellFormed) : ∀ p ∈ ps.map (substPiece t v), p.WellFormed := by
  intro p hp
  obtain ⟨q, hq, rfl⟩ := List.mem_map.mp hp
  have hqwf := hwf q hq
  cases q with
  | text s => exact hqwf
  | token u spelling =>
    by_cases hu : u = t
    · simpa [substPiece, hu, Piece.WellFormed] using hv
    · simpa [substPiece, hu] using hqwf

theorem replaceGI_pieces (t : Token) (rep : Str) (hrep : dollar ∉ rep) (ps : List Piece)
    (hwf : ∀ p ∈ ps, p.WellFormed) :
    replaceGI t.pattern rep (templateOf ps) = templateOf (ps.map (substPiece t rep)) :=
  replaceScan_pieces t rep hrep ps [] hwf

theorem templateOf_resolved (st : State) (ps : List Piece) :
    templateOf
        (List.map (substPiece Token.spinner (spinnerFrame st))
          (List.map (substPiece Token.percent (percentStr st))
            (List.map (substPiece Token.size (numStr st.size))
              (List.map (substPiece Token.current (numStr st.current))
                (List.map (substPiece Token.bar (generate st)) ps)))))
      = (ps.map (Piece.value st)).flatten := by
  induction ps with
  | nil => rfl
  | cons p ps ih =>
    simp only [templateOf, List.map_cons, List.flatten_cons] at ih ⊢
    rw [ih]
    congr 1
    cases p with
    | text s => rfl
    | token t spelling => cases t <;> rfl

/-- C2 (amended): for a non-empty template made of literal pieces without
opening brace and of the five tokens in any letter case, any number of times,
and a state whose prefix, suffix, glyphs as emitted (styled when `colored` is
set) and spinner frame hold no opening brace and no dollar sign,
`formatStr` returns the template with every token replaced by its value:
`generate()`, the decimal `current`, the decimal `size`, the decimal percent,
and the spinner frame or the text `{spinner}` without spinner. -/
theorem formatStr_pieces (st : State) (ps : List Piece)
    (hwf : ∀ p ∈ ps, p.WellFormed) (hne : templateOf ps ≠ [])
    (hpre : Clean st.chars.prefix_) (hsuf : Clean st.chars.suffix)
    (hc : Clean (completeItem st)) (hi : Clean (incompleteItem st))
    (hsp : ∀ sp, st.spinner = some sp → Clean sp.current) :
    formatStr st (some (templateOf ps)) = (ps.map (Piece.value st)).flatten := by
  have hgen := generate_clean st hpre hsuf hc hi
  have hcur := numStr_clean st.current
  have hsize := numStr_clean st.size
  have hper := percentStr_clean st
  have hspin : dollar ∉ spinnerFrame st := by
    unfold spinnerFrame
    cases hs : st.spinner with
    | none => decide
    | some sp => exact (hsp sp hs).2
  have h1 := substPiece_wellFormed Token.bar _ hgen.1 ps hwf
  have h2 := substPiece_wellFormed Token.current _ hcur.1 _ h1
  have h3 := substPiece_wellFormed Token.size _ hsize.1 _ h2
  have h4 := substPiece_wellFormed Token.percent _ hper.1 _ h3
  have e1 : barToken = Token.bar.pattern := by decide
  have e2 : "{current}".toList = Token.current.pattern := by decide
  have e3 : "{size}".toList = Token.size.pattern := by decide
  have e4 : "{percent}".toList = Token.percent.pattern := by decide
  have e5 : "{spinner}".toList = Token.spinner.pattern := by decide
  unfold formatStr chooseFormat
  simp only [hne, if_false]
  rw [e1, e2, e3, e4, e5, replaceGI_pieces _ _ hgen.2 ps hwf,
    replaceGI_pieces _ _ hcur.2 _ h1, replaceGI_pieces _ _ hsize.2 _ h2,
    replaceGI_pieces _ _ hper.2 _ h3, replaceGI_pieces _ _ hspin _ h4]
  exact templateOf_resolved st ps

theorem formatStr_pieces_witness :
    (∀ p ∈ demoPieces, p.WellFormed) ∧ templateOf demoPieces ≠ []
      ∧ Clean demoBar.chars.prefix_ ∧ Clean demoBar.chars.suffix
      ∧ Clean (completeItem demoBar) ∧ Clean (incompleteItem demoBar)
      ∧ (∀ sp, demoBar.spinner = some sp → Clean sp.current)
      ∧ formatStr demoBar (some (templateOf demoPieces))
          = (demoPieces.map (Piece.value demoBar)).flatten :=
  ⟨by decide, by decide, by decide, by decide, by decide, by decide,
    fun _ h => by simp [demoBar] at h,
    formatStr_pieces demoBar demoPieces (by decide) (by decide) (by decide) (by decide)
      (by decide) (by decide) (fun _ h => by simp [demoBar] at h)⟩

/-- C2 fails as stated: the empty template is formatted as the base format,
not as the empty string; and with `colored` set a styler may put an opening
brace into the bar, which later passes then resolve (here the bar of
`styledBar` for the template `{bar}` comes out with `{size}` replaced). -/
theorem formatStr_pieces_counterexample :
    formatStr demoBar (some (templateOf []))
        ≠ (([] : List Piece).map (Piece.value demoBar)).flatten
      ∧ (Clean styledBar.chars.complete ∧ Clean styledBar.chars.incomplete
          ∧ Clean styledBar.chars.prefix_ ∧ Clean styledBar.chars.suffix
          ∧ formatStr styledBar (some (templateOf [Piece.token Token.bar "bar".toList]))
              ≠ ([Piece.token Token.bar "bar".toList].map (Piece.value styledBar)).flatten) := by
  decide

/-! ## Binary64 rounding and the percent -/

theorem roundHalfEven_floor_le (q : ℚ) : ⌊q⌋ ≤ roundHalfEven q := by
  unfold roundHalfEven
  split_ifs <;> omega

theorem roundHalfEven_err (q : ℚ) : |(roundHalfEven q : ℚ) - q| ≤ 1 / 2 := by
  have h1 := Int.floor_le q
  have h2 := Int.lt_floor_add_one q
  unfold roundHalfEven
  rw [abs_le]
  split_ifs with a b c
  · constructor <;> linarith
  · push_cast
    constructor <;> linarith
  · constructor <;> linarith
  · push_cast
    constructor <;> linarith

theorem roundHalfEven_ge (q : ℚ) (n : ℤ) (h : (n : ℚ) ≤ q) : n ≤ roundHalfEven q :=
  le_trans (Int.le_floor.mpr h) (roundHalfEven_floor_le q)

theorem roundHalfEven_le (q : ℚ) (n : ℤ) (h : q ≤ (n : ℚ)) : roundHalfEven q ≤ n := by
  have h1 := Int.floor_le q
  have hfl : ⌊q⌋ ≤ n := by
    have : ((⌊q⌋ : ℤ) : ℚ) ≤ (n : ℚ) := le_trans h1 h
    exact_mod_cast this
  have hstrict : 0 < q - ⌊q⌋ → ⌊q⌋ + 1 ≤ n := by
    intro hpos
    have : ((⌊q⌋ : ℤ) : ℚ) < (n : ℚ) := by linarith
    have : ⌊q⌋ < n := by exact_mod_cast this
    omega
  unfold roundHalfEven
  split_ifs with a b c
  · exact hfl
  · exact hstrict (by linarith)
  · exact hfl
  · exact hstrict (by linarith)

theorem ulp_pos (q : ℚ) : 0 < (2 : ℚ) ^ (Int.log 2 q - 52) := by positivity

theorem ulp_le (q : ℚ) (hq : 0 < q) : (2 : ℚ) ^ (Int.log 2 q - 52) ≤ q * (1 / 2 ^ 52) := by
  have h := Int.zpow_log_le_self (b := 2) (by norm_num) hq
  have h' : (2 : ℚ) ^ Int.log 2 q ≤ q := by simpa using h
  rw [zpow_sub₀ (by norm_num : (2 : ℚ) ≠ 0)]
  have : (2 : ℚ) ^ (52 : ℤ) = 2 ^ 52 := by norm_num
  rw [this, div_eq_mul_one_div]
  exact mul_le_mul_of_nonneg_right h' (by positivity)

theorem flPos_err (q : ℚ) (hq : 0 < q) : |flPos q - q| ≤ q * (1 / 2 ^ 53) := by
  have hu := ulp_pos q
  have hule := ulp_le q hq
  have hr := roundHalfEven_err (q / (2 : ℚ) ^ (Int.log 2 q - 52))
  unfold flPos
  generalize (2 : ℚ) ^ (Int.log 2 q - 52) = u at *
  generalize (roundHalfEven (q / u) : ℚ) = m at *
  have e : m * u - q = (m - q / u) * u := by
    field_simp
  rw [e, abs_mul, abs_of_pos hu]
  have : |m - q / u| * u ≤ 1 / 2 * u := mul_le_mul_of_nonneg_right hr hu.le
  linarith

theorem flPos_ge_pow (q : ℚ) (hq : 0 < q) : (2 : ℚ) ^ Int.log 2 q ≤ flPos q := by
  have hu := ulp_pos q
  have h := Int.zpow_log_le_self (b := 2) (by norm_num) hq
  have h' : (2 : ℚ) ^ Int.log 2 q ≤ q := by simpa using h
  have hsplit : (2 : ℚ) ^ Int.log 2 q = ((2 ^ 52 : ℤ) : ℚ) * (2 : ℚ) ^ (Int.log 2 q - 52) := by
    rw [zpow_sub₀ (by norm_num : (2 : ℚ) ≠ 0)]
    norm_num
    field_simp
  have hge : (2 ^ 52 : ℤ) ≤ roundHalfEven (q / (2 : ℚ) ^ (Int.log 2 q - 52)) := by
    apply roundHalfEven_ge
    rw [le_div_iff₀ hu, ← hsplit]
    exact h'
  unfold flPos
  rw [hsplit]
  exact mul_le_mul_of_nonneg_right (by exact_mod_cast hge) hu.le

theorem int_scaled (q : ℚ) (k : ℤ) (hlog : Int.log 2 q ≤ 52) :
    (k : ℚ) / (2 : ℚ) ^ (Int.log 2 q - 52)
      = ((k * 2 ^ (52 - Int.log 2 q).toNat : ℤ) : ℚ) := by
  have hn : ((52 - Int.log 2 q).toNat : ℤ) = 52 - Int.log 2 q := Int.toNat_of_nonneg (by omega)
  have : (2 : ℚ) ^ (Int.log 2 q - 52) = ((2 : ℚ) ^ ((52 - Int.log 2 q).toNat))⁻¹ := by
    rw [← zpow_natCast, hn, ← zpow_neg]
    congr 1
    ring
  rw [this]
  push_cast
  field_simp

theorem flPos_le_int (q : ℚ) (k : ℤ) (hlog : Int.log 2 q ≤ 52) (h : q ≤ k) :
    flPos q ≤ k := by
  have hu := ulp_pos q
  have hs := int_scaled q k hlog
  have hle : roundHalfEven (q / (2 : ℚ) ^ (Int.log 2 q - 52))
      ≤ k * 2 ^ (52 - Int.log 2 q).toNat := by
    apply roundHalfEven_le
    rw [← hs]
    exact div_le_div_of_nonneg_right h hu.le
  unfold flPos
  have hk : (k : ℚ) = ((k * 2 ^ (52 - Int.log 2 q).toNat : ℤ) : ℚ)
      * (2 : ℚ) ^ (Int.log 2 q - 52) := by
    rw [← hs]
    field_simp
  rw [hk]
  exact mul_le_mul_of_nonneg_right (by exact_mod_cast hle) hu.le

theorem flPos_ge_int (q : ℚ) (k : ℤ) (hlog : Int.log 2 q ≤ 52) (h : (k : ℚ) ≤ q) :
    (k : ℚ) ≤ flPos q := by
  have hu := ulp_pos q
  have hs := int_scaled q k hlog
  have hle : k * 2 ^ (52 - Int.log 2 q).toNat
      ≤ roundHalfEven (q / (2 : ℚ) ^ (Int.log 2 q - 52)) := by
    apply roundHalfEven_ge
    rw [← hs]
    exact div_le_div_of_nonneg_right h hu.le
  unfold flPos
  have hk : (k : ℚ) = ((k * 2 ^ (52 - Int.log 2 q).toNat : ℤ) : ℚ)
      * (2 : ℚ) ^ (Int.log 2 q - 52) := by
    rw [← hs]
    field_simp
  rw [hk]
  exact mul_le_mul_of_nonneg_right (by exact_mod_cast hle) hu.le

theorem fl_zero : fl 0 = 0 := by
  simp [fl]

theorem fl_of_pos (q : ℚ) (hq : 0 < q) : fl q = flPos q := by
  unfold fl
  rw [if_neg hq.ne', if_neg (not_lt.mpr hq.le)]

theorem fl_nonneg (q : ℚ) (hq : 0 ≤ q) : 0 ≤ fl q := by
  rcases hq.eq_or_lt with h | h
  · rw [← h, fl_zero]
  · rw [fl_of_pos q h]
    exact le_trans (by positivity) (flPos_ge_pow q h)

theorem fl_err (q : ℚ) (hq : 0 ≤ q) : |fl q - q| ≤ q * (1 / 2 ^ 53) := by
  rcases hq.eq_or_lt with h | h
  · rw [← h, fl_zero]
    simp
  · rw [fl_of_pos q h]
    exact flPos_err q h

theorem fl_ge_one (q : ℚ) (hq : 1 ≤ q) : 1 ≤ fl q := by
  have hpos : 0 < q := by linarith
  rw [fl_of_pos q hpos]
  have hlog : 0 ≤ Int.log 2 q := by
    have := Int.log_mono_right (b := 2) (by norm_num : (0 : ℚ) < 1) hq
    simpa using this
  exact le_trans (one_le_zpow₀ (by norm_num) hlog) (flPos_ge_pow q hpos)

theorem log_le_of_le_100 (q : ℚ) (hq : 0 < q) (h : q ≤ 100) : Int.log 2 q ≤ 52 := by
  have h7 : Int.log 2 q < 7 := by
    rw [← Int.lt_zpow_iff_log_lt (by norm_num) hq]
    norm_num
    linarith
  omega

theorem fl_le_100 (q : ℚ) (h0 : 0 ≤ q) (h : q ≤ 100) : fl q ≤ 100 := by
  rcases h0.eq_or_lt with h1 | h1
  · rw [← h1, fl_zero]
    norm_num
  · rw [fl_of_pos q h1]
    have := flPos_le_int q 100 (log_le_of_le_100 q h1 h) (by simpa using h)
    simpa using this

theorem fl_100 : fl 100 = 100 := by
  apply le_antisymm (fl_le_100 100 (by norm_num) le_rfl)
  rw [fl_of_pos 100 (by norm_num)]
  have := flPos_ge_int 100 100 (log_le_of_le_100 100 (by norm_num) le_rfl) (by norm_num)
  simpa using this

theorem floor_close (a b : ℚ) (h : |a - b| < 1) : ⌊a⌋ ≤ ⌊b⌋ + 1 ∧ ⌊b⌋ ≤ ⌊a⌋ + 1 := by
  rw [abs_lt] at h
  have a1 := Int.floor_le a
  have a2 := Int.lt_floor_add_one a
  have b1 := Int.floor_le b
  have b2 := Int.lt_floor_add_one b
  constructor
  · have : ((⌊a⌋ : ℤ) : ℚ) < ((⌊b⌋ + 1 + 1 : ℤ) : ℚ) := by
      push_cast
      linarith
    have : ⌊a⌋ < ⌊b⌋ + 1 + 1 := by exact_mod_cast this
    omega
  · have : ((⌊b⌋ : ℤ) : ℚ) < ((⌊a⌋ + 1 + 1 : ℤ) : ℚ) := by
      push_cast
      linarith
    have : ⌊b⌋ < ⌊a⌋ + 1 + 1 := by exact_mod_cast this
    omega

theorem pct_bounds (c s : ℤ) (h0 : 0 ≤ c) (h1 : 1 ≤ s) :
    0 ≤ ⌊fl (min (max (fl ((c : ℚ) / (s : ℚ))) 0) 1 * 100)⌋
      ∧ ⌊fl (min (max (fl ((c : ℚ) / (s : ℚ))) 0) 1 * 100)⌋ ≤ 100
      ∧ (s ≤ c → ⌊fl (min (max (fl ((c : ℚ) / (s : ℚ))) 0) 1 * 100)⌋ = 100)
      ∧ (c ≤ s →
          ⌊fl (min (max (fl ((c : ℚ) / (s : ℚ))) 0) 1 * 100)⌋ ≤ 100 * c / s + 1
            ∧ 100 * c / s ≤ ⌊fl (min (max (fl ((c : ℚ) / (s : ℚ))) 0) 1 * 100)⌋ + 1) := by
  have hs : (0 : ℚ) < (s : ℚ) := by exact_mod_cast (by omega : (0 : ℤ) < s)
  have hc : (0 : ℚ) ≤ (c : ℚ) := by exact_mod_cast h0
  have hx : (0 : ℚ) ≤ (c : ℚ) / (s : ℚ) := div_nonneg hc hs.le
  have hr := fl_nonneg _ hx
  have hratio : min (max (fl ((c : ℚ) / (s : ℚ))) 0) 1 = min (fl ((c : ℚ) / (s : ℚ))) 1 := by
    rw [max_eq_left hr]
  have hy0 : 0 ≤ min (fl ((c : ℚ) / (s : ℚ))) 1 * 100 := by
    have : 0 ≤ min (fl ((c : ℚ) / (s : ℚ))) 1 := le_min hr (by norm_num)
    linarith
  have hy1 : min (fl ((c : ℚ) / (s : ℚ))) 1 * 100 ≤ 100 := by
    have : min (fl ((c : ℚ) / (s : ℚ))) 1 ≤ 1 := min_le_right _ _
    linarith
  rw [hratio]
  refine ⟨?_, ?_, ?_, ?_⟩
  · exact Int.floor_nonneg.mpr (fl_nonneg _ hy0)
  · have h := fl_le_100 _ hy0 hy1
    have h2 := Int.floor_le (fl (min (fl ((c : ℚ) / (s : ℚ))) 1 * 100))
    have : ((⌊fl (min (fl ((c : ℚ) / (s : ℚ))) 1 * 100)⌋ : ℤ) : ℚ) ≤ ((100 : ℤ) : ℚ) := by
      push_cast
      linarith
    exact_mod_cast this
  · intro hsc
    have hx1 : (1 : ℚ) ≤ (c : ℚ) / (s : ℚ) := by
      rw [le_div_iff₀ hs]
      have : (s : ℚ) ≤ (c : ℚ) := by exact_mod_cast hsc
      linarith
    rw [min_eq_right (fl_ge_one _ hx1), one_mul, fl_100]
    norm_num
  · intro hcs
    have hx1 : (c : ℚ) / (s : ℚ) ≤ 1 := by
      rw [div_le_iff₀ hs]
      have : (c : ℚ) ≤ (s : ℚ) := by exact_mod_cast hcs
      linarith
    have he1 := fl_err _ hx
    have he2 := fl_err _ hy0
    have hdiv : (100 * c / s : ℤ) = ⌊(100 : ℚ) * ((c : ℚ) / (s : ℚ))⌋ := by
      have := Rat.floor_intCast_div_natCast (100 * c) s.toNat
      rw [Int.toNat_of_nonneg (by omega)] at this
      rw [← this]
      congr 1
      have hsn : ((s.toNat : ℕ) : ℚ) = (s : ℚ) := by
        have : ((s.toNat : ℕ) : ℤ) = s := Int.toNat_of_nonneg (by omega)
        exact_mod_cast congrArg (fun z : ℤ => (z : ℚ)) this
      rw [hsn]
      push_cast
      ring
    rw [hdiv]
    apply floor_close
    have hmin : |min (fl ((c : ℚ) / (s : ℚ))) 1 - (c : ℚ) / (s : ℚ)| ≤ 1 / 2 ^ 53 := by
      rw [abs_le] at he1 ⊢
      have hb : (c : ℚ) / (s : ℚ) * (1 / 2 ^ 53) ≤ 1 / 2 ^ 53 := by
        have : (0 : ℚ) ≤ 1 / 2 ^ 53 := by positivity
        nlinarith
      rcases le_total (fl ((c : ℚ) / (s : ℚ))) 1 with hle | hle
      · rw [min_eq_left hle]
        constructor <;> linarith
      · rw [min_eq_right hle]
        constructor <;> linarith
    have hfl : |fl (min (fl ((c : ℚ) / (s : ℚ))) 1 * 100) - min (fl ((c : ℚ) / (s : ℚ))) 1 * 100|
        ≤ 100 * (1 / 2 ^ 53) := by
      refine le_trans he2 ?_
      have : (0 : ℚ) ≤ 1 / 2 ^ 53 := by positivity
      nlinarith
    have hsmall : (1 : ℚ) / 2 ^ 53 ≤ 1 / 400 := by norm_num
    rw [abs_le] at hmin hfl
    rw [abs_lt]
    constructor <;> linarith

theorem log_eq_of_bounds (q : ℚ) (e : ℤ) (h1 : (2 : ℚ) ^ e ≤ q) (h2 : q < (2 : ℚ) ^ (e + 1)) :
    Int.log 2 q = e := by
  have hq : 0 < q := lt_of_lt_of_le (by positivity) h1
  have a : e ≤ Int.log 2 q := by
    rw [← Int.zpow_le_iff_le_log (by norm_num) hq]
    simpa using h1
  have b : Int.log 2 q < e + 1 := by
    rw [← Int.lt_zpow_iff_log_lt (by norm_num) hq]
    simpa using h2
  omega

theorem roundHalfEven_down (q : ℚ) (f : ℤ) (h1 : (f : ℚ) ≤ q) (h2 : q - f < 1 / 2) :
    roundHalfEven q = f := by
  have hf : ⌊q⌋ = f := by
    rw [Int.floor_eq_iff]
    constructor
    · exact h1
    · linarith
  unfold roundHalfEven
  rw [hf, if_pos h2]

theorem flPos_eq (q : ℚ) (e m : ℤ) (h1 : (2 : ℚ) ^ e ≤ q) (h2 : q < (2 : ℚ) ^ (e + 1))
    (hm : roundHalfEven (q / (2 : ℚ) ^ (e - 52)) = m) : flPos q = m * (2 : ℚ) ^ (e - 52) := by
  unfold flPos
  rw [log_eq_of_bounds q e h1 h2, hm]

theorem fl_57_100 : fl (57 / 100) = 5134103575202365 / 9007199254740992 := by
  rw [fl_of_pos _ (by norm_num),
    flPos_eq (57 / 100) (-1) 5134103575202365 (by norm_num) (by norm_num)
      (roundHalfEven_down _ _ (by norm_num) (by norm_num))]
  norm_num

theorem fl_57_100_times : fl (5134103575202365 / 9007199254740992 * 100)
    = 8022036836253695 / 140737488355328 := by
  rw [fl_of_pos _ (by norm_num),
    flPos_eq _ 5 8022036836253695 (by norm_num) (by norm_num)
      (roundHalfEven_down _ _ (by norm_num) (by norm_num))]
  norm_num

theorem fl_half : fl (1 / 2) = 1 / 2 := by
  rw [fl_of_pos _ (by norm_num),
    flPos_eq (1 / 2) (-1) 4503599627370496 (by norm_num) (by norm_num)
      (roundHalfEven_down _ _ (by norm_num) (by norm_num))]
  norm_num

theorem fl_50 : fl 50 = 50 := by
  rw [fl_of_pos _ (by norm_num),
    flPos_eq 50 5 7036874417766400 (by norm_num) (by norm_num)
      (roundHalfEven_down _ _ (by norm_num) (by norm_num))]
  norm_num

theorem percent_eq (st : State) (h : st.size ≠ 0) :
    percent st
      = some ⌊fl (min (max (fl ((st.current : ℚ) / (st.size : ℚ))) 0) 1 * 100)⌋ := by
  simp [percent, h]

/-- C3 (amended): for integers `current ≥ 0` and `size ≥ 1` in the safe range
the value substituted for the percent token is the decimal of
`Math.floor` of the binary64 product of the clamped binary64 quotient and
one hundred: an integer in `[0, 100]`, equal to 100 when `current ≥ size`,
and at most one away from `floor(100 * current / size)` when
`current ≤ size`. The pairs (0, 10), (5, 10), (10, 10), (15, 10) give 0, 50,
100, 100. -/
theorem percent_bounds (st : State) (h0 : 0 ≤ st.current) (h1 : 1 ≤ st.size)
    (_hc : st.current ≤ 2 ^ 53) (_hs : st.size ≤ 2 ^ 53) :
    (∃ p : Int, percent st = some p ∧ percentStr st = numStr p
        ∧ 0 ≤ p ∧ p ≤ 100
        ∧ (st.size ≤ st.current → p = 100)
        ∧ (st.current ≤ st.size →
            p ≤ 100 * st.current / st.size + 1 ∧ 100 * st.current / st.size ≤ p + 1))
      ∧ percent (demoAt 0 10) = some 0 ∧ percent (demoAt 5 10) = some 50
      ∧ percent (demoAt 10 10) = some 100 ∧ percent (demoAt 15 10) = some 100 := by
  have hne : st.size ≠ 0 := by omega
  have hb := pct_bounds st.current st.size h0 h1
  refine ⟨⟨_, percent_eq st hne, ?_, hb.1, hb.2.1, hb.2.2.1, hb.2.2.2⟩, ?_, ?_, ?_, ?_⟩
  · unfold percentStr
    rw [percent_eq st hne]
  · rw [percent_eq _ (by decide)]
    simp [demoAt, demoBar, fl_zero]
  · rw [percent_eq _ (by decide)]
    have e1 : (((demoAt 5 10).current : ℤ) : ℚ) / (((demoAt 5 10).size : ℤ) : ℚ) = 1 / 2 := by
      simp [demoAt, demoBar]
      norm_num
    rw [e1, fl_half]
    norm_num [fl_50]
  · rw [percent_eq _ (by decide)]
    exact congrArg some ((pct_bounds 10 10 (by decide) (by decide)).2.2.1 (by decide))
  · rw [percent_eq _ (by decide)]
    exact congrArg some ((pct_bounds 15 10 (by decide) (by decide)).2.2.1 (by decide))

theorem percent_bounds_witness :
    (0 : Int) ≤ (demoAt 57 100).current ∧ (1 : Int) ≤ (demoAt 57 100).size
      ∧ (demoAt 57 100).current ≤ 2 ^ 53 ∧ (demoAt 57 100).size ≤ 2 ^ 53
      ∧ ∃ p : Int, percent (demoAt 57 100) = some p ∧ 0 ≤ p ∧ p ≤ 100 := by
  have h := (percent_bounds (demoAt 57 100) (by decide) (by decide) (by decide)
    (by decide)).1
  obtain ⟨p, hp, _, hp0, hp1, _⟩ := h
  exact ⟨by decide, by decide, by decide, by decide, p, hp, hp0, hp1⟩

/-- C3 fails as stated: at `current = 57`, `size = 100` the binary64 quotient
is just below 0.57, its product with one hundred rounds to the binary64 value
just below 57, and the percent is 56, while `floor(100 * 57 / 100)` is 57. -/
theorem percent_counterexample :
    (0 : Int) ≤ (demoAt 57 100).current ∧ (demoAt 57 100).current ≤ (demoAt 57 100).size
      ∧ percent (demoAt 57 100) = some 56
      ∧ (100 * (demoAt 57 100).current / (demoAt 57 100).size : Int) = 57 := by
  refine ⟨by decide, by decide, ?_, by decide⟩
  rw [percent_eq _ (by decide)]
  have e1 : (((demoAt 57 100).current : ℤ) : ℚ) / (((demoAt 57 100).size : ℤ) : ℚ)
      = 57 / 100 := by
    simp [demoAt, demoBar]
  rw [e1, fl_57_100]
  have e2 : min (max (5134103575202365 / 9007199254740992 : ℚ) 0) 1
      = 5134103575202365 / 9007199254740992 := by
    rw [max_eq_left (by norm_num), min_eq_left (by norm_num)]
  rw [e2, fl_57_100_times]
  congr 1
  rw [Int.floor_eq_iff]
  constructor <;> norm_num

/-! ## Construction: proofs -/

theorem includes_iff (pat : Str) : ∀ s : Str, includes s pat = true ↔ pat <:+: s := by
  intro s
  induction s with
  | nil =>
    unfold includes
    rw [List.isPrefixOf_iff_prefix]
    simp
  | cons c cs ih =>
    unfold includes
    rw [Bool.or_eq_true, List.isPrefixOf_iff_prefix, ih, List.infix_cons_iff]

theorem construct_fields (env : Env) (format : Option Str) (options : OptionsArg) (st : State)
    (h : (construct env format options).2 = Except.ok st) :
    st.format = format.getD barToken ∧ st.terminated = false ∧ st.interruptions = 0
      ∧ st.current = (merge (defaultOptions env) (normalize options)).current
      ∧ st.size = (merge (defaultOptions env) (normalize options)).size := by
  unfold construct at h
  simp only [] at h
  split at h
  · simp at h
  · simp only [render, initState] at h
    split at h
    · split at h
      · simp only [Except.ok.injEq] at h
        subst h
        simp
      · simp only [Except.ok.injEq] at h
        subst h
        simp
    · simp only [Except.ok.injEq] at h
      subst h
      simp

/-- C4: construction fails for every format in which the text `{bar}` does
not occur and succeeds for every format in which it occurs; a failed
construction yields the error and no instance, and has issued no event: no
cursor hide, no write, no timer. The format `no bar here` fails, the format
`{bar} {percent}%` succeeds. -/
theorem construct_validation (env : Env) (format : Str) (options : OptionsArg) :
    (¬ barToken <:+: format →
        construct env (some format) options = ([], Except.error noBarError))
      ∧ (barToken <:+: format →
        ∃ st, (construct env (some format) options).2 = Except.ok st
          ∧ (construct env (some format) options).1.head? = some Event.cursorHide)
      ∧ construct env (some "no bar here".toList) options = ([], Except.error noBarError)
      ∧ (∃ st, (construct env (some "{bar} {percent}%".toList) options).2 = Except.ok st) := by
  have hfail : ∀ f : Str, ¬ barToken <:+: f →
      construct env (some f) options = ([], Except.error noBarError) := by
    intro f h
    have hi : includes f barToken = false := by
      rw [← Bool.not_eq_true, includes_iff]
      exact h
    simp [construct, hi]
  have hok : ∀ f : Str, barToken <:+: f →
      ∃ st, (construct env (some f) options).2 = Except.ok st
        ∧ (construct env (some f) options).1.head? = some Event.cursorHide := by
    intro f h
    have hi : includes f barToken = true := (includes_iff barToken f).mpr h
    simp only [construct, Option.getD_some, hi, Bool.not_true, Bool.false_eq_true, if_false]
    split
    · split <;> exact ⟨_, rfl, rfl⟩
    · exact ⟨_, rfl, rfl⟩
  refine ⟨hfail format, hok format, hfail _ ?_, ?_⟩
  · rw [← includes_iff]
    decide
  · obtain ⟨st, h, _⟩ := hok "{bar} {percent}%".toList (by
      rw [← includes_iff]
      decide)
    exact ⟨st, h⟩

theorem construct_validation_witness :
    ¬ barToken <:+: "no bar".toList ∧ barToken <:+: "{bar} {size}".toList
      ∧ construct demoEnv (some "no bar".toList) (OptionsArg.number 4)
          = ([], Except.error noBarError)
      ∧ ∃ st, (construct demoEnv (some "{bar} {size}".toList) (OptionsArg.number 4)).2
          = Except.ok st
        ∧ (construct demoEnv (some "{bar} {size}".toList) (OptionsArg.number 4)).1.head?
          = some Event.cursorHide :=
  ⟨by rw [← includes_iff]; decide, by rw [← includes_iff]; decide,
    (construct_validation demoEnv "no bar".toList (OptionsArg.number 4)).1
      (by rw [← includes_iff]; decide),
    (construct_validation demoEnv "{bar} {size}".toList (OptionsArg.number 4)).2.1
      (by rw [← includes_iff]; decide)⟩

/-! ## The controller: proofs -/

theorem demoStart_constructed :
    (construct demoEnv (some barToken) (OptionsArg.number 2)).2 = Except.ok demoStart := rfl

theorem tick_advance (st : State) (extra : Option Str) (hterm : st.terminated = false)
    (hlt : st.current < st.size) :
    tick st extra = ({ st with current := st.current + 1 },
      [Event.cursorTo 0, Event.clearLine,
        Event.write (formatStr { st with current := st.current + 1 }
          (tickMessage { st with current := st.current + 1 } extra))]) := by
  have h : ¬ st.current + 1 > st.size := by omega
  simp [tick, render, hterm, h]

theorem tick_overshoot (st : State) (extra : Option Str) (hterm : st.terminated = false)
    (hge : st.size ≤ st.current) :
    tick st extra = terminate { st with current := st.current + 1 } := by
  have h : st.current + 1 > st.size := by omega
  simp [tick, hterm, h]

theorem run_ticks (extra : Option Str) :
    ∀ (k : Nat) (st : State), st.terminated = false → st.current + k ≤ st.size →
      (run st (List.replicate k (Call.tick extra))).1
        = { st with current := st.current + k } := by
  intro k
  induction k with
  | zero => intro st _ _; simp [run]
  | succ n ih =>
    intro st hterm hle
    have hlt : st.current < st.size := by omega
    simp only [List.replicate_succ, run, step]
    rw [tick_advance st extra hterm hlt]
    simp only []
    rw [ih { st with current := st.current + 1 } hterm (by
      show st.current + 1 + (n : Int) ≤ st.size
      push_cast at hle
      omega)]
    simp only [State.mk.injEq, true_and, and_true]
    push_cast
    ring

theorem writes_terminate (st : State) : ∀ s ∈ writes (terminate st).2, s = [newline] := by
  intro s hs
  unfold terminate at hs
  split at hs
  · simp [writes] at hs
  · simp only [cleanup] at hs
    split at hs <;> split at hs <;> try split at hs
    all_goals simp [writes] at hs
    all_goals exact hs

theorem tick_last (st : State) (extra : Option Str) (n : Int)
    (hterm : st.terminated = false) (hcur : st.current = n) (hsize : st.size = n) :
    tick st extra = terminate { st with current := n + 1 }
      ∧ (tick st extra).1.terminated = true
      ∧ (tick st extra).1.current = n + 1
      ∧ Event.clearLine ∉ (tick st extra).2
      ∧ ∀ s ∈ writes (tick st extra).2, s = [newline] := by
  have hover := tick_overshoot st extra hterm (by omega)
  rw [hcur] at hover
  rw [hover]
  refine ⟨rfl, ?_, ?_, ?_, writes_terminate _⟩
  · simp [terminate, hterm]
  · simp [terminate, hterm]
  · simp only [terminate, hterm, cleanup]
    by_cases hc : st.clear = true <;> by_cases hs : st.stream.hasClearLine = true
      <;> by_cases hp : st.spinner.isSome = true <;> simp [hc, hs, hp]

/-- C5: for a constructed bar with `current ≤ size` (no lower bound is
needed), each of the first `size - current` calls of `tick` finds and leaves
`terminated` false and raises `current` by exactly 1; the call after them
finds `current = size` and `terminated` false, is `terminate()` on the bar
with `current` raised to `size + 1`, leaves `terminated` true, issues no
render (no `clearLine`) and writes nothing but the line feed of the
cleanup. -/
theorem tick_overshoot_terminates (env : Env) (format : Option Str) (options : OptionsArg)
    (st : State) (extra : Option Str)
    (hcons : (construct env format options).2 = Except.ok st)
    (h1 : st.current ≤ st.size) :
    (∀ k : Nat, (k : Int) < st.size - st.current →
        (run st (List.replicate k (Call.tick extra))).1.terminated = false
          ∧ (tick (run st (List.replicate k (Call.tick extra))).1 extra).1.terminated = false
          ∧ (tick (run st (List.replicate k (Call.tick extra))).1 extra).1.current
              = (run st (List.replicate k (Call.tick extra))).1.current + 1
          ∧ (run st (List.replicate k (Call.tick extra))).1.current = st.current + k)
      ∧ (run st (List.replicate (st.size - st.current).toNat (Call.tick extra))).1.terminated
          = false
      ∧ (run st (List.replicate (st.size - st.current).toNat (Call.tick extra))).1.current
          = st.size
      ∧ tick (run st (List.replicate (st.size - st.current).toNat (Call.tick extra))).1 extra
          = terminate { (run st (List.replicate (st.size - st.current).toNat
              (Call.tick extra))).1 with current := st.size + 1 }
      ∧ (tick (run st (List.replicate (st.size - st.current).toNat (Call.tick extra))).1
          extra).1.terminated = true
      ∧ (tick (run st (List.replicate (st.size - st.current).toNat (Call.tick extra))).1
          extra).1.current = st.size + 1
      ∧ Event.clearLine ∉ (tick (run st (List.replicate (st.size - st.current).toNat
          (Call.tick extra))).1 extra).2
      ∧ ∀ s ∈ writes (tick (run st (List.replicate (st.size - st.current).toNat
          (Call.tick extra))).1 extra).2, s = [newline] := by
  have hterm : st.terminated = false := (construct_fields env format options st hcons).2.1
  have hlast := run_ticks extra (st.size - st.current).toNat st hterm (by omega)
  have hcur : st.current + ((st.size - st.current).toNat : Int) = st.size := by omega
  rw [hcur] at hlast
  have hl := tick_last (run st (List.replicate (st.size - st.current).toNat
    (Call.tick extra))).1 extra st.size (by rw [hlast]; exact hterm) (by rw [hlast])
    (by rw [hlast])
  refine ⟨?_, by rw [hlast]; exact hterm, by rw [hlast], hl.1, hl.2.1, hl.2.2.1, hl.2.2.2.1,
    hl.2.2.2.2⟩
  intro k hk
  have hk1 := run_ticks extra k st hterm (by omega)
  have ha := tick_advance (run st (List.replicate k (Call.tick extra))).1 extra
    (by rw [hk1]; exact hterm) (by rw [hk1]; show st.current + (k : Int) < st.size; omega)
  refine ⟨by rw [hk1]; exact hterm, ?_, ?_, by rw [hk1]⟩
  · rw [ha]
    show (run st (List.replicate k (Call.tick extra))).1.terminated = false
    rw [hk1]
    exact hterm
  · rw [ha]

theorem tick_overshoot_terminates_witness :
    (construct demoEnv (some barToken) (OptionsArg.number 2)).2 = Except.ok demoStart
      ∧ demoStart.current ≤ demoStart.size
      ∧ (run demoStart (List.replicate (demoStart.size - demoStart.current).toNat
          (Call.tick none))).1.terminated = false
      ∧ (tick (run demoStart (List.replicate (demoStart.size - demoStart.current).toNat
          (Call.tick none))).1 none).1.terminated = true :=
  ⟨rfl, by decide,
    (tick_overshoot_terminates demoEnv (some barToken) (OptionsArg.number 2) demoStart none
      rfl (by decide)).2.1,
    (tick_overshoot_terminates demoEnv (some barToken) (OptionsArg.number 2) demoStart none
      rfl (by decide)).2.2.2.2.1⟩

/-- C6: in a state where `terminated` is true, `tick`, `render`, `spin` and
`terminate` each return the state unchanged and issue no event at all: no
write, no cursor operation, no callback, no cursor show. -/
theorem terminated_noop (st : State) (extra format : Option Str)
    (hterm : st.terminated = true) :
    tick st extra = (st, []) ∧ render st format = (st, [])
      ∧ spin st = Except.ok (st, []) ∧ terminate st = (st, [])
      ∧ step st (Call.tick extra) = (st, []) ∧ step st (Call.render format) = (st, [])
      ∧ step st Call.spin = (st, []) ∧ step st Call.terminate = (st, []) := by
  simp [tick, render, spin, terminate, step, hterm]

theorem terminated_noop_witness :
    (terminate demoBar).1.terminated = true
      ∧ tick (terminate demoBar).1 (some "x".toList) = ((terminate demoBar).1, [])
      ∧ render (terminate demoBar).1 none = ((terminate demoBar).1, []) :=
  ⟨rfl, (terminated_noop (terminate demoBar).1 (some "x".toList) none rfl).1,
    (terminated_noop (terminate demoBar).1 (some "x".toList) none rfl).2.1⟩

/-! ## Termination happens once -/

theorem step_terminated (st : State) (c : Call) (hterm : st.terminated = true) :
    (step st c).1.terminated = true ∧ countCallback (step st c).2 = 0
      ∧ countShow (step st c).2 = 0 := by
  cases c <;> simp [step, tick, render, spin, terminate, interrupt, hterm, countCallback,
    countShow]

theorem terminate_counts (st : State) (hterm : st.terminated = false) :
    (terminate st).1.terminated = true ∧ countCallback (terminate st).2 = 1
      ∧ countShow (terminate st).2 = 1 := by
  by_cases hc : st.clear = true <;> by_cases hs : st.stream.hasClearLine = true
    <;> by_cases hp : st.spinner.isSome = true
    <;> simp [terminate, cleanup, hterm, hc, hs, hp, countCallback, countShow,
      List.countP_cons, List.count_cons]

theorem step_live (st : State) (c : Call) (hterm : st.terminated = false) :
    countCallback (step st c).2 = (if (step st c).1.terminated then 1 else 0)
      ∧ countShow (step st c).2 = (if (step st c).1.terminated then 1 else 0) := by
  cases c with
  | tick extra =>
    by_cases hover : st.current + 1 > st.size
    · have ht := terminate_counts { st with current := st.current + 1 } hterm
      have e : step st (Call.tick extra) = terminate { st with current := st.current + 1 } := by
        simp [step, tick, hterm, hover]
      rw [e, ht.1, ht.2.1, ht.2.2]
      simp
    · simp [step, tick, render, hterm, hover, countCallback, countShow]
  | render format => simp [step, render, hterm, countCallback, countShow]
  | spin =>
    cases hsp : st.spinner with
    | none => simp [step, spin, hterm, hsp, countCallback, countShow]
    | some sp => simp [step, spin, render, hterm, hsp, countCallback, countShow]
  | interrupt message => simp [step, interrupt, hterm, countCallback, countShow]
  | terminate =>
    have ht := terminate_counts st hterm
    have e : step st Call.terminate = terminate st := rfl
    rw [e, ht.1, ht.2.1, ht.2.2]
    simp

theorem run_terminated (calls : List Call) :
    ∀ st : State, st.terminated = true →
      (run st calls).1.terminated = true ∧ countCallback (run st calls).2 = 0
        ∧ countShow (run st calls).2 = 0 := by
  induction calls with
  | nil => intro st h; simp [run, h, countCallback, countShow]
  | cons c cs ih =>
    intro st h
    have h1 := step_terminated st c h
    have h2 := ih (step st c).1 h1.1
    simp only [run]
    refine ⟨h2.1, ?_, ?_⟩
    · unfold countCallback at h1 h2 ⊢
      rw [List.countP_append, h1.2.1, h2.2.1]
    · unfold countShow at h1 h2 ⊢
      rw [List.count_append, h1.2.2, h2.2.2]

theorem run_live (calls : List Call) :
    ∀ st : State, st.terminated = false →
      countCallback (run st calls).2 = (if (run st calls).1.terminated then 1 else 0)
        ∧ countShow (run st calls).2 = (if (run st calls).1.terminated then 1 else 0) := by
  induction calls with
  | nil => intro st h; simp [run, h, countCallback, countShow]
  | cons c cs ih =>
    intro st h
    have h1 := step_live st c h
    simp only [run]
    have happ1 : countCallback ((step st c).2 ++ (run (step st c).1 cs).2)
        = countCallback (step st c).2 + countCallback (run (step st c).1 cs).2 := by
      unfold countCallback
      rw [List.countP_append]
    have happ2 : countShow ((step st c).2 ++ (run (step st c).1 cs).2)
        = countShow (step st c).2 + countShow (run (step st c).1 cs).2 := by
      unfold countShow
      rw [List.count_append]
    rw [happ1, happ2]
    cases hst : (step st c).1.terminated with
    | true =>
      have h2 := run_terminated cs (step st c).1 hst
      simp only [hst, if_true] at h1
      simp [h1.1, h1.2, h2.1, h2.2.1, h2.2.2]
    | false =>
      have h2 := ih (step st c).1 hst
      simp only [hst, Bool.false_eq_true, if_false] at h1
      simp [h1.1, h1.2, h2.1, h2.2]

/-- C7: along every sequence of `tick`, `render`, `spin`, `interrupt` and
`terminate` calls on a bar that starts out not terminated, the completion
callback and `cliCursor.show()` are each invoked exactly once if the bar ends
up terminated and not at all otherwise. Calling `terminate()` twice, on any
such bar, gives one callback invocation, with the terminated instance as
argument, and one cursor show; the second call returns the state unchanged
and issues no event. -/
theorem terminate_exactly_once (st : State) (calls : List Call)
    (hterm : st.terminated = false) :
    countCallback (run st calls).2 = (if (run st calls).1.terminated then 1 else 0)
      ∧ countShow (run st calls).2 = (if (run st calls).1.terminated then 1 else 0)
      ∧ countCallback (run st [Call.terminate, Call.terminate]).2 = 1
      ∧ countShow (run st [Call.terminate, Call.terminate]).2 = 1
      ∧ Event.callback { st with terminated := true }.snapshot
          ∈ (run st [Call.terminate, Call.terminate]).2
      ∧ step (step st Call.terminate).1 Call.terminate = ((step st Call.terminate).1, []) := by
  have hr := run_live calls st hterm
  have h2 := run_live [Call.terminate, Call.terminate] st hterm
  have ht := terminate_counts st hterm
  have hfin : (run st [Call.terminate, Call.terminate]).1.terminated = true :=
    (run_terminated [Call.terminate] (step st Call.terminate).1 ht.1).1
  rw [hfin] at h2
  refine ⟨hr.1, hr.2, by simpa using h2.1, by simpa using h2.2, ?_, ?_⟩
  · simp [run, step, terminate, hterm]
  · simp [step, terminate, hterm]

theorem terminate_exactly_once_witness :
    demoStart.terminated = false
      ∧ countCallback (run demoStart [Call.tick none, Call.interrupt (some "a".toList),
          Call.tick none, Call.tick none, Call.terminate, Call.tick none]).2
        = (if (run demoStart [Call.tick none, Call.interrupt (some "a".toList),
          Call.tick none, Call.tick none, Call.terminate, Call.tick none]).1.terminated
          then 1 else 0)
      ∧ countShow (run demoStart [Call.terminate, Call.terminate]).2 = 1 :=
  ⟨rfl,
    (terminate_exactly_once demoStart [Call.tick none, Call.interrupt (some "a".toList),
      Call.tick none, Call.tick none, Call.terminate, Call.tick none] rfl).1,
    (terminate_exactly_once demoStart [] rfl).2.2.2.1⟩

/-! ## Interruptions -/

/-- C8, the code at the failing input: on the example bar, a `terminate()`
followed by `interrupt("late")` leaves `terminated` true after the first
call, and the second call still moves the cursor, writes a line feed and the
message to the stream, and raises the interruption counter from 0 to 1. -/
theorem interrupt_after_terminate :
    (step demoBar Call.terminate).1.terminated = true
      ∧ (step demoBar Call.terminate).1.interruptions = 0
      ∧ (step (step demoBar Call.terminate).1 (Call.interrupt (some "late".toList))).2
          = [Event.cursorTo 0, Event.moveCursor 0 1,
              Event.write (newline :: "late".toList), Event.moveCursor 0 (-1)]
      ∧ (step (step demoBar Call.terminate).1
          (Call.interrupt (some "late".toList))).1.interruptions = 1
      ∧ writes (run demoBar [Call.terminate, Call.interrupt (some "late".toList)]).2
          = [[newline], newline :: "late".toList] := by
  decide

theorem formatStr_interruptions (st : State) (n : Int) (message : Option Str) :
    formatStr { st with interruptions := n } message = formatStr st message := rfl

/-- C9: in every state, terminated or not, and for every message,
`interrupt(message)` raises the interruption counter by exactly 1 to a value
`N`, changes no other field, and issues exactly: cursor to column 0, move
cursor down by `N` rows, write a line feed followed by `formatStr(message)`,
move cursor up by `N` rows. Two calls on a bar whose counter is 0 leave the
counter at 2, with moves by 1 and then by 2. -/
theorem interrupt_effect (st : State) (message message2 : Option Str) :
    (interrupt st message).1 = { st with interruptions := st.interruptions + 1 }
      ∧ (interrupt st message).2
          = [Event.cursorTo 0, Event.moveCursor 0 (st.interruptions + 1),
              Event.write (newline :: formatStr st message),
              Event.moveCursor 0 (-(st.interruptions + 1))]
      ∧ (st.interruptions = 0 →
          (run st [Call.interrupt message, Call.interrupt message2]).1.interruptions = 2
            ∧ (run st [Call.interrupt message, Call.interrupt message2]).2
              = [Event.cursorTo 0, Event.moveCursor 0 1,
                  Event.write (newline :: formatStr st message), Event.moveCursor 0 (-1),
                  Event.cursorTo 0, Event.moveCursor 0 2,
                  Event.write (newline :: formatStr st message2),
                  Event.moveCursor 0 (-2)]) := by
  refine ⟨rfl, rfl, ?_⟩
  intro h0
  simp only [run, step, interrupt, h0, List.append_nil, List.cons_append, List.nil_append,
    formatStr_interruptions]
  constructor
  · norm_num
  · norm_num

theorem interrupt_effect_witness :
    demoBar.interruptions = 0
      ∧ (run demoBar [Call.interrupt (some "a".toList),
          Call.interrupt (some "b".toList)]).1.interruptions = 2
      ∧ (run demoBar [Call.interrupt (some "a".toList), Call.interrupt (some "b".toList)]).2
          = [Event.cursorTo 0, Event.moveCursor 0 1,
              Event.write (newline :: formatStr demoBar (some "a".toList)),
              Event.moveCursor 0 (-1),
              Event.cursorTo 0, Event.moveCursor 0 2,
              Event.write (newline :: formatStr demoBar (some "b".toList)),
              Event.moveCursor 0 (-2)] :=
  ⟨rfl, (interrupt_effect demoBar (some "a".toList) (some "b".toList)).2.2 rfl⟩

theorem cursorRow_interrupt (st : State) (message : Option Str) (row : Int) :
    cursorRow row (interrupt st message).2
      = row + 1 + ((formatStr st message).count newline : Nat) := by
  simp only [interrupt, cursorRow, formatStr_interruptions, List.count_cons_self]
  push_cast
  ring

/-- C10 (amended): in the terminal model where a cursor move by `d` rows
changes the cursor row by `d` and every line feed written moves the cursor
down one row, the two cursor moves of `interrupt(message)` cancel, and the
cursor row after the call is the row before it plus the number of line feeds
written: one plus those in `formatStr(message)`. -/
theorem interrupt_displacement (st : State) (message : Option Str) (row : Int) :
    cursorRow row (interrupt st message).2
        = row + 1 + ((formatStr st message).count newline : Nat)
      ∧ cursorRow row [Event.moveCursor 0 (st.interruptions + 1),
          Event.moveCursor 0 (-(st.interruptions + 1))] = row
      ∧ row < cursorRow row (interrupt st message).2 := by
  refine ⟨cursorRow_interrupt st message row, ?_, ?_⟩
  · simp only [cursorRow]
    ring
  · rw [cursorRow_interrupt]
    omega

/-- C10 fails as stated: on the example bar, `interrupt("msg")` started at row
0 leaves the cursor at row 1. -/
theorem interrupt_displacement_counterexample :
    cursorRow 0 (interrupt demoBar (some "msg".toList)).2 = 1
      ∧ cursorRow 0 (interrupt demoBar (some "msg".toList)).2 ≠ 0 := by
  decide

/-! ## The extra text of a tick -/

theorem formatStr_resolve (st : State) (ps : List Piece)
    (hwf : ∀ p ∈ ps, p.WellFormed) (hne : templateOf ps ≠ [])
    (hpre : Clean st.chars.prefix_) (hsuf : Clean st.chars.suffix)
    (hc : Clean (completeItem st)) (hi : Clean (incompleteItem st))
    (hsp : ∀ sp, st.spinner = some sp → Clean sp.current) :
    formatStr st (some (templateOf ps)) = (ps.map (Piece.value st)).flatten := by
  have hgen := generate_clean st hpre hsuf hc hi
  have hcur := numStr_clean st.current
  have hsize := numStr_clean st.size
  have hper := percentStr_clean st
  have hspin : dollar ∉ spinnerFrame st := by
    unfold spinnerFrame
    cases hs : st.spinner with
    | none => decide
    | some sp => exact (hsp sp hs).2
  have h1 := substPiece_wellFormed Token.bar _ hgen.1 ps hwf
  have h2 := substPiece_wellFormed Token.current _ hcur.1 _ h1
  have h3 := substPiece_wellFormed Token.size _ hsize.1 _ h2
  have h4 := substPiece_wellFormed Token.percent _ hper.1 _ h3
  have e1 : barToken = Token.bar.pattern := by decide
  have e2 : "{current}".toList = Token.current.pattern := by decide
  have e3 : "{size}".toList = Token.size.pattern := by decide
  have e4 : "{percent}".toList = Token.percent.pattern := by decide
  have e5 : "{spinner}".toList = Token.spinner.pattern := by decide
  unfold formatStr chooseFormat
  simp only [hne, if_false]
  rw [e1, e2, e3, e4, e5, replaceGI_pieces _ _ hgen.2 ps hwf,
    replaceGI_pieces _ _ hcur.2 _ h1, replaceGI_pieces _ _ hsize.2 _ h2,
    replaceGI_pieces _ _ hper.2 _ h3, replaceGI_pieces _ _ hspin _ h4]
  exact templateOf_resolved st ps

theorem barToken_not_prefix_short (p rest : Str) (hlen : 0 < p.length)
    (hno : ¬ barToken <:+: p) : barToken.isPrefixOf (p ++ barToken ++ rest) = false := by
  rcases p with _ | ⟨c1, _ | ⟨c2, _ | ⟨c3, _ | ⟨c4, _ | ⟨c5, p⟩⟩⟩⟩⟩
  · simp at hlen
  · simp [barToken, List.isPrefixOf]
  · simp [barToken, List.isPrefixOf]
  · simp [barToken, List.isPrefixOf]
  · simp [barToken, List.isPrefixOf]
  · by_contra hpre
    rw [Bool.not_eq_false] at hpre
    apply hno
    have hp : barToken.isPrefixOf (c1 :: c2 :: c3 :: c4 :: c5 :: p) = true := by
      simp [barToken, List.isPrefixOf] at hpre ⊢
      exact hpre
    exact (List.isPrefixOf_iff_prefix.mp hp).isInfix

theorem searchFrom_bar (rest : Str) :
    ∀ (p : Str) (i : Nat), ¬ barToken <:+: p →
      searchFrom barToken i (p ++ barToken ++ rest) = ((i + p.length : Nat) : Int) := by
  intro p
  induction p with
  | nil =>
    intro i _
    simp [barToken, searchFrom, List.isPrefixOf]
  | cons c p ih =>
    intro i hno
    have hno2 : ¬ barToken <:+: p := fun h => hno (List.infix_cons h)
    have hpre := barToken_not_prefix_short (c :: p) rest (by simp) hno
    simp only [List.cons_append] at hpre ⊢
    unfold searchFrom
    simp only [List.append_assoc] at hpre ih ⊢
    rw [hpre]
    simp only [Bool.false_eq_true, if_false]
    rw [ih (i + 1) hno2]
    simp only [List.length_cons]
    congr 1
    omega

theorem tickMessage_shape (st : State) (p rest extra : Str)
    (hfmt : st.format = p ++ barToken ++ rest) (hno : ¬ barToken <:+: p)
    (hextra : extra ≠ []) :
    tickMessage st (some extra) = some (p ++ "{bar} ".toList ++ extra) := by
  unfold tickMessage
  simp only [hextra, if_false]
  unfold search substr0
  rw [hfmt, searchFrom_bar rest p 0 hno]
  simp

theorem templateOf_append (ps qs : List Piece) :
    templateOf (ps ++ qs) = templateOf ps ++ templateOf qs := by
  simp [templateOf]

/-- C11 (amended): for a format `P ++ "{bar}" ++ R`, with `P` made of
well-formed pieces and holding no `{bar}`, a non-empty extra text `E` made of
well-formed pieces, and clean glyphs and spinner frame, a tick that does not
overshoot writes the formatted `P`, the bar, one space and the formatted `E`,
all in the state after the increment. The remainder `R` of the format is not
part of the line. -/
theorem tick_extra_line (st : State) (pp ep : List Piece) (rest : Str)
    (hterm : st.terminated = false) (hlt : st.current < st.size)
    (hfmt : st.format = templateOf pp ++ barToken ++ rest)
    (hno : ¬ barToken <:+: templateOf pp)
    (hwfp : ∀ p ∈ pp, p.WellFormed) (hwfe : ∀ p ∈ ep, p.WellFormed)
    (hextra : templateOf ep ≠ [])
    (hpre : Clean st.chars.prefix_) (hsuf : Clean st.chars.suffix)
    (hc : Clean (completeItem st)) (hi : Clean (incompleteItem st))
    (hsp : ∀ sp, st.spinner = some sp → Clean sp.current) :
    (tick st (some (templateOf ep))).2
      = [Event.cursorTo 0, Event.clearLine,
          Event.write ((pp.map (Piece.value { st with current := st.current + 1 })).flatten
            ++ generate { st with current := st.current + 1 } ++ [Char.ofNat 32]
            ++ (ep.map (Piece.value { st with current := st.current + 1 })).flatten)] := by
  have hmsg := tickMessage_shape { st with current := st.current + 1 } (templateOf pp) rest
    (templateOf ep) hfmt hno hextra
  have hshape : templateOf pp ++ "{bar} ".toList ++ templateOf ep
      = templateOf (pp ++ [Piece.token Token.bar "bar".toList, Piece.text [Char.ofNat 32]]
          ++ ep) := by
    rw [templateOf_append, templateOf_append]
    congr 1
  have hwf : ∀ p ∈ pp ++ [Piece.token Token.bar "bar".toList, Piece.text [Char.ofNat 32]]
      ++ ep, p.WellFormed := by
    intro p hp
    rcases List.mem_append.mp hp with h | h
    · rcases List.mem_append.mp h with h | h
      · exact hwfp p h
      · rcases List.mem_cons.mp h with h | h
        · subst h
          decide
        · rcases List.mem_cons.mp h with h | h
          · subst h
            decide
          · simp at h
    · exact hwfe p h
  have hne : templateOf (pp ++ [Piece.token Token.bar "bar".toList,
      Piece.text [Char.ofNat 32]] ++ ep) ≠ [] := by
    rw [templateOf_append]
    intro h
    exact hextra (List.append_eq_nil.mp h).2
  rw [tick_advance st (some (templateOf ep)) hterm hlt]
  simp only []
  rw [hmsg, hshape, formatStr_resolve { st with current := st.current + 1 } _ hwf hne hpre
    hsuf hc hi hsp]
  simp [Piece.value, tokenValue]

theorem tick_extra_line_witness :
    (demoWith ">{bar}<".toList).terminated = false
      ∧ (demoWith ">{bar}<".toList).current < (demoWith ">{bar}<".toList).size
      ∧ (tick (demoWith ">{bar}<".toList)
          (some (templateOf [Piece.token Token.size "SIZE".toList]))).2
        = [Event.cursorTo 0, Event.clearLine, Event.write ">[###-] 4".toList] := by
  have h := tick_extra_line (demoWith ">{bar}<".toList) [Piece.text ">".toList]
    [Piece.token Token.size "SIZE".toList] "<".toList rfl (by decide) rfl
    (by rw [← includes_iff]; decide) (by decide) (by decide) (by decide) (by decide)
    (by decide) (by decide) (by decide) (fun _ h => by simp [demoWith, demoBar] at h)
  exact ⟨rfl, by decide, h.trans (by decide)⟩

/-- C11 fails as stated: with the format `>{bar}<` the call `tick("x")` on
the bar of the examples writes `>[###-] x`; the remainder `<` of the format
is not shown, and the line is not the formatted `>`, the bar, the formatted
`x` and the formatted `<`. -/
theorem tick_extra_line_counterexample :
    (tick (demoWith ">{bar}<".toList) (some "x".toList)).2
        = [Event.cursorTo 0, Event.clearLine, Event.write ">[###-] x".toList]
      ∧ includes ">[###-] x".toList "<".toList = false
      ∧ ">[###-] x".toList
        ≠ formatStr (tick (demoWith ">{bar}<".toList) (some "x".toList)).1 (some ">".toList)
          ++ generate (tick (demoWith ">{bar}<".toList) (some "x".toList)).1
          ++ formatStr (tick (demoWith ">{bar}<".toList) (some "x".toList)).1
              (some "x".toList)
          ++ formatStr (tick (demoWith ">{bar}<".toList) (some "x".toList)).1
              (some "<".toList) := by
  decide

/-- C20: on a bar that is not terminated, with `current < size` and the
format `P ++ "{bar}" ++ R` where `{bar}` does not occur in `P`, the call
`tick(E)` with a non-empty `E` raises `current` by 1 and writes exactly
`formatStr(P + "{bar} " + E)`, evaluated after the increment; `tick` without
extra text, or with the empty one, writes `formatStr` of the base format. -/
theorem tick_extra_writes (st : State) (p rest extra : Str)
    (hterm : st.terminated = false) (hlt : st.current < st.size)
    (hfmt : st.format = p ++ barToken ++ rest) (hno : ¬ barToken <:+: p)
    (hextra : extra ≠ []) :
    tick st (some extra) = ({ st with current := st.current + 1 },
        [Event.cursorTo 0, Event.clearLine,
          Event.write (formatStr { st with current := st.current + 1 }
            (some (p ++ "{bar} ".toList ++ extra)))])
      ∧ tick st none = ({ st with current := st.current + 1 },
        [Event.cursorTo 0, Event.clearLine,
          Event.write (formatStr { st with current := st.current + 1 } (some st.format))])
      ∧ tick st (some []) = ({ st with current := st.current + 1 },
        [Event.cursorTo 0, Event.clearLine,
          Event.write (formatStr { st with current := st.current + 1 } (some st.format))]) := by
  have hmsg := tickMessage_shape { st with current := st.current + 1 } p rest extra hfmt hno
    hextra
  have hbase : ∀ m : Option Str, tickMessage { st with current := st.current + 1 } m = none →
      formatStr { st with current := st.current + 1 }
          (tickMessage { st with current := st.current + 1 } m)
        = formatStr { st with current := st.current + 1 } (some st.format) := by
    intro m hm
    rw [hm]
    unfold formatStr chooseFormat
    have hne : st.format ≠ [] := by
      rw [hfmt]
      simp [barToken]
    simp [hne]
  refine ⟨?_, ?_, ?_⟩
  · rw [tick_advance st (some extra) hterm hlt, hmsg]
  · rw [tick_advance st none hterm hlt, hbase none rfl]
  · rw [tick_advance st (some []) hterm hlt, hbase (some []) (by simp [tickMessage])]

theorem tick_extra_writes_witness :
    (demoWith ">{bar}<".toList).terminated = false
      ∧ (demoWith ">{bar}<".toList).current < (demoWith ">{bar}<".toList).size
      ∧ ¬ barToken <:+: ">".toList
      ∧ (tick (demoWith ">{bar}<".toList) (some "x".toList)).2
        = [Event.cursorTo 0, Event.clearLine,
            Event.write (formatStr (demoAt 3 4) (some ">{bar} x".toList))] :=
  ⟨rfl, by decide, by rw [← includes_iff]; decide,
    congrArg Prod.snd (tick_extra_writes (demoWith ">{bar}<".toList) ">".toList "<".toList
      "x".toList rfl (by decide) rfl (by rw [← includes_iff]; decide) (by decide)).1⟩

/-! ## The cleanup of terminate -/

/-- C12 (amended): on a bar that is not terminated, with interruption count
`N`, `terminate()` issues the cursor show, then its cleanup, then
`clearInterval` if there is a spinner, then the callback. The cleanup is one
of three: with `clear` set on a stream with `clearLine`, clear the line,
cursor to column 0, move by `N` rows, and no text; with `clear` set on a
stream without `clearLine`, nothing at all; without `clear`, move by `N` rows
and write one line feed. -/
theorem terminate_cleanup (st : State) (hterm : st.terminated = false) :
    (terminate st).2 = [Event.cursorShow] ++ cleanup st
        ++ (if st.spinner.isSome then [Event.clearInterval] else [])
        ++ [Event.callback { st with terminated := true }.snapshot]
      ∧ (st.clear = true → st.stream.hasClearLine = true →
          cleanup st = [Event.streamClearLine, Event.cursorTo 0,
              Event.moveCursor 0 st.interruptions]
            ∧ writes (terminate st).2 = [])
      ∧ (st.clear = true → st.stream.hasClearLine = false →
          cleanup st = [] ∧ writes (terminate st).2 = []
            ∧ ∀ dx dy, Event.moveCursor dx dy ∉ (terminate st).2)
      ∧ (st.clear = false →
          cleanup st = [Event.moveCursor 0 st.interruptions, Event.write [newline]]
            ∧ writes (terminate st).2 = [[newline]]) := by
  have hev : (terminate st).2 = [Event.cursorShow] ++ cleanup st
      ++ (if st.spinner.isSome then [Event.clearInterval] else [])
      ++ [Event.callback { st with terminated := true }.snapshot] := by
    simp [terminate, hterm, cleanup]
  refine ⟨hev, ?_, ?_, ?_⟩
  · intro hc hs
    rw [hev]
    by_cases hp : st.spinner.isSome = true <;> simp [cleanup, hc, hs, hp, writes]
  · intro hc hs
    rw [hev]
    by_cases hp : st.spinner.isSome = true <;> simp [cleanup, hc, hs, hp, writes]
  · intro hc
    rw [hev]
    by_cases hp : st.spinner.isSome = true <;> simp [cleanup, hc, hp, writes]

theorem terminate_cleanup_witness :
    clearBar.terminated = false
      ∧ (terminate clearBar).2
        = [Event.cursorShow] ++ cleanup clearBar
          ++ (if clearBar.spinner.isSome then [Event.clearInterval] else [])
          ++ [Event.callback { clearBar with terminated := true }.snapshot]
      ∧ cleanup clearBar = [] :=
  ⟨rfl, (terminate_cleanup clearBar rfl).1, ((terminate_cleanup clearBar rfl).2.2.1 rfl rfl).1⟩

/-- C12 fails as stated: with `clear` set on a stream without `clearLine`,
`terminate()` on the example bar issues the cursor show and the callback only:
it moves no cursor and writes no line feed. -/
theorem terminate_cleanup_counterexample :
    clearBar.terminated = false ∧ clearBar.clear = true
      ∧ clearBar.stream.hasClearLine = false
      ∧ (terminate clearBar).2
        = [Event.cursorShow,
            Event.callback { current := 2, size := 4, interruptions := 0, terminated := true }]
      ∧ Event.moveCursor 0 clearBar.interruptions ∉ (terminate clearBar).2
      ∧ writes (terminate clearBar).2 ≠ [[newline]] := by
  decide

/-! ## The line shown after some ticks -/

theorem writes_append (a b : List Event) : writes (a ++ b) = writes a ++ writes b := by
  induction a with
  | nil => rfl
  | cons e a ih =>
    cases e <;> simp [writes, ih]

theorem last_write_ticks :
    ∀ (k : Nat) (st : State) (pre : List Str), st.terminated = false →
      st.current + k ≤ st.size →
      (pre ++ [formatStr st none]
          ++ writes (run st (List.replicate k (Call.tick none))).2).getLast?
        = some (formatStr { st with current := st.current + k } none) := by
  intro k
  induction k with
  | zero =>
    intro st pre _ _
    simp [run, writes]
  | succ n ih =>
    intro st pre hterm hle
    have hlt : st.current < st.size := by omega
    have hstep := tick_advance st none hterm hlt
    have hih := ih { st with current := st.current + 1 } (pre ++ [formatStr st none]) hterm
      (by
        show st.current + 1 + (n : Int) ≤ st.size
        push_cast at hle
        omega)
    have e : st.current + 1 + (n : Int) = st.current + ((n + 1 : Nat) : Int) := by
      push_cast
      ring
    simp only [e] at hih
    rw [← hih]
    simp only [List.replicate_succ, run, step]
    rw [hstep]
    simp [writes, writes_append, tickMessage]

theorem glyphStart_constructed (env : Env) (size : Int) (chars : Chars) :
    construct env (some barToken) (glyphOptions size chars)
      = ([Event.cursorHide, Event.cursorTo 0, Event.clearLine,
            Event.write (formatStr (glyphStart env size chars) none)],
          Except.ok (glyphStart env size chars)) := rfl

theorem glyphStart_line (env : Env) (size : Int) (chars : Chars) (c : Int)
    (hpre : Clean chars.prefix_) (hsuf : Clean chars.suffix)
    (hc : Clean chars.complete) (hi : Clean chars.incomplete) :
    formatStr { glyphStart env size chars with current := c } none
      = chars.prefix_ ++ (List.replicate c.toNat chars.complete).flatten
        ++ (List.replicate (size - c).toNat chars.incomplete).flatten ++ chars.suffix := by
  have h0 : formatStr { glyphStart env size chars with current := c } none
      = formatStr { glyphStart env size chars with current := c }
          (some (templateOf [Piece.token Token.bar "bar".toList])) := rfl
  rw [h0, formatStr_resolve { glyphStart env size chars with current := c }
    [Piece.token Token.bar "bar".toList] (by decide) (by decide) hpre hsuf hc hi
    (fun _ h => by simp [glyphStart, initState, merge, normalize, glyphOptions] at h)]
  simp only [List.map_cons, List.map_nil, Piece.value, tokenValue, List.flatten_cons,
    List.flatten_nil, List.append_nil]
  unfold generate
  rw [generateParts_eq]
  simp only [List.flatten_append, List.flatten_cons, List.flatten_nil, List.append_nil]
  rfl

/-- C13 (amended): for a bar constructed with the format `{bar}`, starting
at 0, without spinner, uncoloured, of size `n`, with glyphs that hold no
opening brace and no dollar sign, and for every `k` with `0 ≤ k ≤ n`, the last
text written to the stream by the construction followed by `k` calls of
`tick()` is the prefix, `k` complete glyphs, `n - k` incomplete glyphs and the
suffix. With size 4, the default glyphs and `k = 2` it is `[##--]`. -/
theorem ticks_last_write (env : Env) (n : Int) (chars : Chars) (k : Nat)
    (hk : (k : Int) ≤ n)
    (hpre : Clean chars.prefix_) (hsuf : Clean chars.suffix)
    (hc : Clean chars.complete) (hi : Clean chars.incomplete) :
    (∃ st, (construct env (some barToken) (glyphOptions n chars)).2 = Except.ok st
        ∧ (writes ((construct env (some barToken) (glyphOptions n chars)).1
            ++ (run st (List.replicate k (Call.tick none))).2)).getLast?
          = some (chars.prefix_ ++ (List.replicate k chars.complete).flatten
              ++ (List.replicate (n - k).toNat chars.incomplete).flatten ++ chars.suffix))
      ∧ (∃ st, (construct env (some barToken) (OptionsArg.object
            { size := some 4, spinner := some false, colored := some false })).2
          = Except.ok st
        ∧ (writes ((construct env (some barToken) (OptionsArg.object
              { size := some 4, spinner := some false, colored := some false })).1
            ++ (run st (List.replicate 2 (Call.tick none))).2)).getLast?
          = some "[##--]".toList) := by
  have key : ∀ (m : Int) (cs : Chars) (j : Nat), (j : Int) ≤ m →
      Clean cs.prefix_ → Clean cs.suffix → Clean cs.complete → Clean cs.incomplete →
      (writes ((construct env (some barToken) (glyphOptions m cs)).1
          ++ (run (glyphStart env m cs) (List.replicate j (Call.tick none))).2)).getLast?
        = some (cs.prefix_ ++ (List.replicate j cs.complete).flatten
            ++ (List.replicate (m - j).toNat cs.incomplete).flatten ++ cs.suffix) := by
    intro m cs j hj h1 h2 h3 h4
    have hl := last_write_ticks j (glyphStart env m cs) [] rfl (by
      show (0 : Int) + (j : Int) ≤ m
      omega)
    have hcur : (glyphStart env m cs).current + (j : Int) = (j : Int) := by
      show (0 : Int) + (j : Int) = j
      omega
    rw [hcur, glyphStart_line env m cs j h1 h2 h3 h4] at hl
    rw [glyphStart_constructed, writes_append]
    simp only [writes, List.nil_append] at hl ⊢
    rw [hl]
    simp
  refine ⟨⟨glyphStart env n chars, rfl, key n chars k hk hpre hsuf hc hi⟩,
    ⟨glyphStart env 4 defaultChars, rfl, ?_⟩⟩
  exact key 4 defaultChars 2 (by decide) (by decide) (by decide) (by decide) (by decide)

theorem ticks_last_write_witness :
    ((3 : Nat) : Int) ≤ 5 ∧ Clean defaultChars.prefix_ ∧ Clean defaultChars.suffix
      ∧ Clean defaultChars.complete ∧ Clean defaultChars.incomplete
      ∧ ∃ st, (construct demoEnv (some barToken) (glyphOptions 5 defaultChars)).2
          = Except.ok st
        ∧ (writes ((construct demoEnv (some barToken) (glyphOptions 5 defaultChars)).1
            ++ (run st (List.replicate 3 (Call.tick none))).2)).getLast?
          = some "[###--]".toList :=
  ⟨by decide, by decide, by decide, by decide, by decide,
    (ticks_last_write demoEnv 5 defaultChars 3 (by decide) (by decide) (by decide)
      (by decide) (by decide)).1⟩

/-- C13 fails as stated: with the prefix `{size}`, size 2 and one tick, the
bar is `{size}#-]`, but the text written last is `2#-]`: the pass that
resolves the size token runs over the bar already put in place. -/
theorem ticks_last_write_counterexample :
    (construct demoEnv (some barToken) (glyphOptions 2 tokenChars)).2
        = Except.ok (glyphStart demoEnv 2 tokenChars)
      ∧ (writes ((construct demoEnv (some barToken) (glyphOptions 2 tokenChars)).1
          ++ (run (glyphStart demoEnv 2 tokenChars)
            (List.replicate 1 (Call.tick none))).2)).getLast?
        = some "2#-]".toList
      ∧ tokenChars.prefix_ ++ (List.replicate 1 tokenChars.complete).flatten
          ++ (List.replicate 1 tokenChars.incomplete).flatten ++ tokenChars.suffix
        = "{size}#-]".toList
      ∧ "2#-]".toList ≠ "{size}#-]".toList :=
  ⟨rfl, by decide, by decide, by decide⟩

/-! ## Bars written after an overshoot, and the validation of the format -/

/-- C14, the code at the failing input: the bar constructed with the format
`{bar}` and `{ size: 2, spinner: false, colored: false }` starts at 0 of 2;
three calls of `tick()` and one of `interrupt()` write `[#-]`, `[##]`, the line
feed of the cleanup, and then a line feed and the bar `[###]`, whose fill body
has 3 glyphs for a size of 2: the last call formats the bar with
`current = 3`. -/
theorem interrupt_overshoot_bar :
    (construct demoEnv (some barToken) plainOptions).2 = Except.ok plainStart
      ∧ plainStart.current = 0 ∧ plainStart.size = 2
      ∧ writes (run plainStart [Call.tick none, Call.tick none, Call.tick none,
          Call.interrupt none]).2
        = ["[#-]".toList, "[##]".toList, [newline], newline :: "[###]".toList]
      ∧ (run plainStart [Call.tick none, Call.tick none, Call.tick none]).1.current = 3
      ∧ (run plainStart [Call.tick none, Call.tick none, Call.tick none]).1.terminated = true
      ∧ (fillBody (run plainStart [Call.tick none, Call.tick none,
          Call.tick none]).1).length = 3 :=
  ⟨rfl, by decide, by decide, by decide, by decide, by decide, by decide⟩

/-- C15, the code at the failing input: the format `{BAR}` holds the bar
token in upper case, and `formatStr` resolves it to the bar, but the
constructor rejects it, issuing no event. -/
theorem uppercase_bar_rejected :
    construct demoEnv (some "{BAR}".toList) (OptionsArg.number 4)
        = ([], Except.error noBarError)
      ∧ OccursCI barToken "{BAR}".toList
      ∧ formatStr (demoWith "{BAR}".toList) none = "[##--]".toList
      ∧ formatStr demoBar (some "{Bar} {size}".toList) = "[##--] 4".toList :=
  ⟨rfl, ⟨[], "{BAR}".toList, [], rfl, by decide⟩, by decide, by decide⟩

/-! ## Templates without tokens -/

theorem matchesAt_occurs (pat pre suf : Str) (h : matchesAt pat suf = true) :
    OccursCI pat (pre ++ suf) := by
  unfold matchesAt at h
  rw [List.isPrefixOf_iff_prefix] at h
  obtain ⟨t, ht⟩ := h
  refine ⟨pre, suf.take pat.length, suf.drop pat.length, ?_, ?_⟩
  · rw [List.append_assoc, List.take_append_drop]
  · rw [List.map_take, ← ht, List.take_left']
    simp

theorem includesCI_of_occurs (pat : Str) :
    ∀ (pre mid post : Str), mid.map canonicalize = pat.map canonicalize →
      includesCI (pre ++ mid ++ post) pat = true := by
  intro pre
  induction pre with
  | nil =>
    intro mid post h
    have hm : matchesAt pat (mid ++ post) = true := by
      unfold matchesAt
      rw [List.isPrefixOf_iff_prefix, List.map_append, h]
      exact List.prefix_append _ _
    simp only [List.nil_append]
    cases hs : mid ++ post with
    | nil =>
      rw [hs] at hm
      simpa [includesCI] using hm
    | cons c cs =>
      rw [hs] at hm
      simp [includesCI, hm]
  | cons c pre ih =>
    intro mid post h
    have hi := ih mid post h
    show (matchesAt pat (c :: (pre ++ mid ++ post)) || includesCI (pre ++ mid ++ post) pat)
      = true
    rw [hi, Bool.or_true]

theorem not_occurs_of_includesCI (pat s : Str) (h : includesCI s pat = false) :
    ¬ OccursCI pat s := by
  rintro ⟨pre, mid, post, rfl, hm⟩
  rw [includesCI_of_occurs pat pre mid post hm] at h
  exact Bool.noConfusion h

theorem replaceScan_no_match (pat rep : Str) :
    ∀ (s before : Str), (∀ pre suf, s = pre ++ suf → matchesAt pat suf = false) →
      replaceScan pat rep 0 before s = s := by
  intro s
  induction s with
  | nil => intro before _; simp [replaceScan]
  | cons c cs ih =>
    intro before h
    have h0 : matchesAt pat (c :: cs) = false := h [] (c :: cs) rfl
    rw [replaceScan_zero, h0]
    simp only [Bool.false_eq_true, if_false]
    rw [ih (before ++ [c]) (fun pre suf e => h (c :: pre) suf (by rw [e]; rfl))]

theorem replaceGI_no_occurrence (pat rep s : Str) (h : ¬ OccursCI pat s) :
    replaceGI pat rep s = s := by
  apply replaceScan_no_match
  intro pre suf e
  cases hm : matchesAt pat suf with
  | false => rfl
  | true =>
    exfalso
    apply h
    rw [e]
    exact matchesAt_occurs pat pre suf hm

/-- C16: for every non-empty template in which none of the five tokens
occurs in any letter case, and for every state, `formatStr` returns the
template unchanged. -/
theorem formatStr_unrecognized (st : State) (template : Str) (hne : template ≠ [])
    (hno : ∀ t : Token, ¬ OccursCI t.pattern template) :
    formatStr st (some template) = template := by
  have e1 : barToken = Token.bar.pattern := by decide
  have e2 : "{current}".toList = Token.current.pattern := by decide
  have e3 : "{size}".toList = Token.size.pattern := by decide
  have e4 : "{percent}".toList = Token.percent.pattern := by decide
  have e5 : "{spinner}".toList = Token.spinner.pattern := by decide
  unfold formatStr chooseFormat
  simp only [hne, if_false]
  rw [e1, e2, e3, e4, e5, replaceGI_no_occurrence _ _ _ (hno Token.bar),
    replaceGI_no_occurrence _ _ _ (hno Token.current),
    replaceGI_no_occurrence _ _ _ (hno Token.size),
    replaceGI_no_occurrence _ _ _ (hno Token.percent),
    replaceGI_no_occurrence _ _ _ (hno Token.spinner)]

theorem formatStr_unrecognized_witness :
    "{foo} $& {eta} 5%".toList ≠ []
      ∧ (∀ t : Token, ¬ OccursCI t.pattern "{foo} $& {eta} 5%".toList)
      ∧ formatStr styledBar (some "{foo} $& {eta} 5%".toList) = "{foo} $& {eta} 5%".toList :=
  ⟨by decide,
    fun t => not_occurs_of_includesCI _ _ (by cases t <;> decide),
    formatStr_unrecognized styledBar "{foo} $& {eta} 5%".toList (by decide)
      (fun t => not_occurs_of_includesCI _ _ (by cases t <;> decide))⟩

/-! ## Rendering again -/

theorem run_renders (st : State) (format : Option Str) (hterm : st.terminated = false) :
    ∀ n : Nat, run st (List.replicate n (Call.render format))
      = (st, (List.replicate n [Event.cursorTo 0, Event.clearLine,
          Event.write (formatStr st format)]).flatten) := by
  intro n
  induction n with
  | zero => rfl
  | succ k ih =>
    have hr : step st (Call.render format)
        = (st, [Event.cursorTo 0, Event.clearLine, Event.write (formatStr st format)]) := by
      simp [step, render, hterm]
    simp only [List.replicate_succ, run, hr, ih, List.flatten_cons]

/-- C17: on a bar that is not terminated, `render(format)` issues exactly
cursor to column 0, clear line, write `formatStr(format)`, in that order, and
returns the state unchanged; any number of renders in a row leave the state
unchanged and write the same string each time. `formatStr` is a function of
the state and the template alone. -/
theorem render_idempotent (st : State) (format : Option Str) (n : Nat)
    (hterm : st.terminated = false) :
    render st format
        = (st, [Event.cursorTo 0, Event.clearLine, Event.write (formatStr st format)])
      ∧ (run st (List.replicate n (Call.render format))).1 = st
      ∧ (run st (List.replicate n (Call.render format))).2
        = (List.replicate n [Event.cursorTo 0, Event.clearLine,
            Event.write (formatStr st format)]).flatten
      ∧ writes (run st (List.replicate n (Call.render format))).2
        = List.replicate n (formatStr st format)
      ∧ formatStr (render st format).1 format = formatStr st format := by
  have hr : render st format
      = (st, [Event.cursorTo 0, Event.clearLine, Event.write (formatStr st format)]) := by
    simp [render, hterm]
  have hrun := run_renders st format hterm n
  refine ⟨hr, by rw [hrun], by rw [hrun], ?_, by rw [hr]⟩
  rw [hrun]
  clear hrun
  induction n with
  | zero => rfl
  | succ k ih =>
    have ih2 : writes (List.replicate k [Event.cursorTo 0, Event.clearLine,
        Event.write (formatStr st format)]).flatten
        = List.replicate k (formatStr st format) := ih
    show writes ([Event.cursorTo 0, Event.clearLine, Event.write (formatStr st format)]
        ++ (List.replicate k [Event.cursorTo 0, Event.clearLine,
          Event.write (formatStr st format)]).flatten)
      = formatStr st format :: List.replicate k (formatStr st format)
    rw [writes_append, ih2]
    rfl

theorem render_idempotent_witness :
    demoBar.terminated = false
      ∧ writes (run demoBar (List.replicate 3 (Call.render none))).2
        = List.replicate 3 (formatStr demoBar none)
      ∧ (run demoBar (List.replicate 3 (Call.render none))).1 = demoBar :=
  ⟨rfl, (render_idempotent demoBar none 3 rfl).2.2.2.1,
    (render_idempotent demoBar none 3 rfl).2.1⟩

/-! ## The options of the constructor -/

theorem construct_options_state (env : Env) (format : Option Str) (options : OptionsArg)
    (st : State) (h : (construct env format options).2 = Except.ok st) :
    st.size = (merge (defaultOptions env) (normalize options)).size
      ∧ st.current = (merge (defaultOptions env) (normalize options)).current
      ∧ st.colored = (merge (defaultOptions env) (normalize options)).colored
      ∧ st.clear = (merge (defaultOptions env) (normalize options)).clear
      ∧ st.chars = (merge (defaultOptions env) (normalize options)).chars
      ∧ st.colors = (merge (defaultOptions env) (normalize options)).colors
      ∧ st.stream = (merge (defaultOptions env) (normalize options)).stream
      ∧ st.spinner
        = (if (merge (defaultOptions env) (normalize options)).spinner then
            some (env.newSpinner (merge (defaultOptions env) (normalize options)).spinnerStyle)
          else none) := by
  unfold construct at h
  simp only [] at h
  split at h
  · simp at h
  · simp only [render, initState] at h
    split at h
    · rename_i hsp
      split at h
      · simp only [Except.ok.injEq] at h
        subst h
        simp [hsp]
      · simp only [Except.ok.injEq] at h
        subst h
        simp [hsp]
    · rename_i hsp
      simp only [Except.ok.injEq] at h
      subst h
      simp [hsp]

/-- C18: constructing with the bare number `n` gives the same events and the
same bar as constructing with the object `{ size: n }`; in the constructed
bar every option the caller left out has its default (size 20, current 0,
spinner on with the style `dots`, coloured, no clear, stderr, the glyphs `#`,
`-`, `[`, `]` and the two default stylers) and every option the caller gave
has the caller's value, key by key also inside `chars` and `colors`. The
spinner is the one made for the style given, or for the default style. A
stream that is no plain object replaces stderr; a plain-object stream
overrides, in stderr, only the keys it gives, the others keeping the values
stderr has. -/
theorem construct_options (env : Env) (format : Option Str) (n : Int) (o : OptionsInput) :
    construct env format (OptionsArg.number n)
        = construct env format (OptionsArg.object { size := some n })
      ∧ ∀ st, (construct env format (OptionsArg.object o)).2 = Except.ok st →
          st.size = o.size.getD 20 ∧ st.current = o.current.getD 0
            ∧ st.spinner.isSome = o.spinner.getD true
            ∧ st.spinner
              = (if o.spinner.getD true then
                  some (env.newSpinner (o.spinnerStyle.getD "dots".toList))
                else none)
            ∧ st.colored = o.colored.getD true ∧ st.clear = o.clear.getD false
            ∧ (o.stream = none → st.stream = env.stderr)
            ∧ (∀ s, o.stream = some (StreamInput.object s) → st.stream = s)
            ∧ (∀ w c, o.stream = some (StreamInput.plain w c) →
                st.stream.writeId = w.getD env.stderr.writeId
                  ∧ st.stream.hasClearLine = c.getD env.stderr.hasClearLine)
            ∧ st.chars.complete = (o.chars.bind CharsInput.complete).getD "#".toList
            ∧ st.chars.incomplete = (o.chars.bind CharsInput.incomplete).getD "-".toList
            ∧ st.chars.prefix_ = (o.chars.bind CharsInput.prefix_).getD "[".toList
            ∧ st.chars.suffix = (o.chars.bind CharsInput.suffix).getD "]".toList
            ∧ st.colors.complete = (o.colors.bind ColorsInput.complete).getD env.blueBright
            ∧ st.colors.incomplete = (o.colors.bind ColorsInput.incomplete).getD env.gray := by
  refine ⟨rfl, ?_⟩
  intro st h
  obtain ⟨h1, h2, h3, h4, h5, h6, h7, h8⟩ :=
    construct_options_state env format (OptionsArg.object o) st h
  have hsp : (merge (defaultOptions env) (normalize (OptionsArg.object o))).spinner
      = o.spinner.getD true := rfl
  have hstyle : (merge (defaultOptions env) (normalize (OptionsArg.object o))).spinnerStyle
      = o.spinnerStyle.getD "dots".toList := rfl
  have hstream : (merge (defaultOptions env) (normalize (OptionsArg.object o))).stream
      = mergeStream env.stderr o.stream := rfl
  rw [hsp, hstyle] at h8
  rw [hstream] at h7
  rw [h1, h2, h3, h4, h5, h6, h7, h8]
  refine ⟨rfl, rfl, ?_, rfl, rfl, rfl, ?_, ?_, ?_, ?_, ?_, ?_, ?_, ?_, ?_⟩
  · cases o.spinner.getD true <;> rfl
  · intro hs
    rw [hs]
    rfl
  · intro s hs
    rw [hs]
    rfl
  · intro w c hs
    rw [hs]
    exact ⟨rfl, rfl⟩
  all_goals simp only [merge, normalize, defaultOptions]
  all_goals first
    | (cases o.chars <;> rfl)
    | (cases o.colors <;> rfl)

theorem construct_options_witness :
    (construct demoEnv (some barToken) (OptionsArg.object glyphStreamOptions)).2
        = Except.ok glyphStreamStart
      ∧ glyphStreamStart.chars.complete = "=".toList
      ∧ glyphStreamStart.chars.incomplete = "-".toList
      ∧ glyphStreamStart.stream.writeId = 7
      ∧ glyphStreamStart.stream.hasClearLine = demoEnv.stderr.hasClearLine
      ∧ glyphStreamStart.spinner = some (demoEnv.newSpinner "line".toList) :=
  ⟨rfl,
    ((construct_options demoEnv (some barToken) 0 glyphStreamOptions).2 _ rfl).2.2.2.2.2.2.2.2.2.1,
    ((construct_options demoEnv (some barToken) 0
      glyphStreamOptions).2 _ rfl).2.2.2.2.2.2.2.2.2.2.1,
    (((construct_options demoEnv (some barToken) 0
      glyphStreamOptions).2 _ rfl).2.2.2.2.2.2.2.2.1 (some 7) none rfl).1,
    (((construct_options demoEnv (some barToken) 0
      glyphStreamOptions).2 _ rfl).2.2.2.2.2.2.2.2.1 (some 7) none rfl).2,
    ((construct_options demoEnv (some barToken) 0 glyphStreamOptions).2 _ rfl).2.2.2.1⟩

/-! ## What the operations leave alone -/

theorem sameConfig_refl (st : State) : SameConfig st st :=
  ⟨rfl, rfl, rfl, rfl, rfl, rfl, rfl⟩

theorem sameConfig_trans {a b c : State} (h1 : SameConfig a b) (h2 : SameConfig b c) :
    SameConfig a c := by
  obtain ⟨a1, a2, a3, a4, a5, a6, a7⟩ := h1
  obtain ⟨b1, b2, b3, b4, b5, b6, b7⟩ := h2
  exact ⟨a1.trans b1, a2.trans b2, a3.trans b3, a4.trans b4, a5.trans b5, a6.trans b6,
    a7.trans b7⟩

theorem terminate_frame (st : State) :
    SameConfig (terminate st).1 st ∧ (terminate st).1.current = st.current := by
  unfold terminate
  split
  · exact ⟨sameConfig_refl st, rfl⟩
  · exact ⟨⟨rfl, rfl, rfl, rfl, rfl, rfl, rfl⟩, rfl⟩

theorem render_frame (st : State) (format : Option Str) : (render st format).1 = st := by
  unfold render
  split <;> rfl

theorem tick_frame (st : State) (extra : Option Str) :
    SameConfig (tick st extra).1 st
      ∧ (tick st extra).1.current = st.current + (if st.terminated then 0 else 1) := by
  unfold tick
  by_cases hterm : st.terminated = true
  · rw [if_pos hterm, if_pos hterm]
    exact ⟨sameConfig_refl st, (add_zero _).symm⟩
  · rw [if_neg hterm, if_neg hterm]
    simp only []
    split
    · have h := terminate_frame { st with current := st.current + 1 }
      exact ⟨sameConfig_trans h.1 ⟨rfl, rfl, rfl, rfl, rfl, rfl, rfl⟩, h.2⟩
    · rw [render_frame]
      exact ⟨⟨rfl, rfl, rfl, rfl, rfl, rfl, rfl⟩, rfl⟩

theorem spin_frame (st : State) :
    SameConfig (step st Call.spin).1 st ∧ (step st Call.spin).1.current = st.current := by
  have key : ∀ r, spin st = Except.ok r → SameConfig r.1 st ∧ r.1.current = st.current := by
    intro r hr
    unfold spin at hr
    by_cases hterm : st.terminated = true
    · rw [if_pos hterm] at hr
      cases hr
      exact ⟨sameConfig_refl st, rfl⟩
    · rw [if_neg hterm] at hr
      split at hr
      · cases hr
      · cases hr
        rw [render_frame]
        exact ⟨⟨rfl, rfl, rfl, rfl, rfl, rfl, rfl⟩, rfl⟩
  unfold step
  cases hs : spin st with
  | error e => exact ⟨sameConfig_refl st, rfl⟩
  | ok r => exact key r hs

theorem step_frame (st : State) (c : Call) :
    SameConfig (step st c).1 st ∧ st.current ≤ (step st c).1.current := by
  cases c with
  | tick extra =>
    have h := tick_frame st extra
    refine ⟨h.1, ?_⟩
    show st.current ≤ (tick st extra).1.current
    rw [h.2]
    split <;> omega
  | render format =>
    show SameConfig (render st format).1 st ∧ st.current ≤ (render st format).1.current
    rw [render_frame]
    exact ⟨sameConfig_refl st, le_refl _⟩
  | spin =>
    have h := spin_frame st
    exact ⟨h.1, le_of_eq h.2.symm⟩
  | interrupt message => exact ⟨⟨rfl, rfl, rfl, rfl, rfl, rfl, rfl⟩, le_refl _⟩
  | terminate =>
    have h := terminate_frame st
    exact ⟨h.1, le_of_eq h.2.symm⟩

theorem run_frame (calls : List Call) :
    ∀ st : State, SameConfig (run st calls).1 st ∧ st.current ≤ (run st calls).1.current := by
  induction calls with
  | nil => intro st; exact ⟨sameConfig_refl st, le_refl _⟩
  | cons c cs ih =>
    intro st
    have h1 := step_frame st c
    have h2 := ih (step st c).1
    exact ⟨sameConfig_trans h2.1 h1.1, le_trans h1.2 h2.2⟩

/-- C19: in every state `render`, `spin`, `interrupt` and `terminate` leave
`current` unchanged; `tick` raises it by exactly 1 when the bar is not
terminated and by 0 when it is; no operation changes size, format, glyphs,
stylers, flags or stream; so along every sequence of calls the configuration
stays the same and `current` does not decrease. -/
theorem operations_frame (st : State) (text : Option Str) (calls : List Call) :
    (render st text).1.current = st.current
      ∧ (step st Call.spin).1.current = st.current
      ∧ (∀ r, spin st = Except.ok r → r.1.current = st.current)
      ∧ (interrupt st text).1.current = st.current
      ∧ (terminate st).1.current = st.current
      ∧ (tick st text).1.current = st.current + (if st.terminated then 0 else 1)
      ∧ (∀ c : Call, SameConfig (step st c).1 st)
      ∧ SameConfig (run st calls).1 st
      ∧ st.current ≤ (run st calls).1.current := by
  refine ⟨by rw [render_frame], (spin_frame st).2, ?_, rfl, (terminate_frame st).2,
    (tick_frame st text).2, fun c => (step_frame st c).1, (run_frame calls st).1,
    (run_frame calls st).2⟩
  intro r hr
  have h := (spin_frame st).2
  unfold step at h
  rw [hr] at h
  exact h

end Progresser
